import Mathlib

/-!
# Verification of the TkVoiceJourney barrage funnel

Shallow embedding of the barrage-processing funnel found in
`app/ai_judge.py` and `app/ai_judge_simple.py` (LRU dedup cache, token
bucket, keyword/value scorer, local classifier, decision funnel, batch
selector), together with proofs of the specified properties.

Python strings are modelled as `List Char`, Python floats as `ℚ`, Python
dicts used by the LRU cache as association lists (their iteration order is
never observed by the modelled code).
-/

set_option maxHeartbeats 1000000

namespace TkVoice

/-! ## Association-list primitives (the `dict` operations the cache uses) -/

/-- Lookup in an association list: `d[k]` / `k in d`. -/
def lookupA {K V : Type} [DecidableEq K] : List (K × V) → K → Option V
  | [], _ => none
  | (k', v) :: t, k => if k' = k then some v else lookupA t k

/-- Deletion of a key: `del d[k]` (removes every binding of `k`;
under the no-duplicate-keys invariant there is at most one). -/
def eraseKey {K V : Type} [DecidableEq K] : List (K × V) → K → List (K × V)
  | [], _ => []
  | (k', v) :: t, k => if k' = k then eraseKey t k else (k', v) :: eraseKey t k

/-- Assignment `d[k] = v`. -/
def setA {K V : Type} [DecidableEq K] (l : List (K × V)) (k : K) (v : V) : List (K × V) :=
  eraseKey l k ++ [(k, v)]

/-! ## LRUCache (`ai_judge.py` / `ai_judge_simple.py`, class `LRUCache`)

`cache` models the Python `dict` (only `in`, `[]`-read, `[]`-write and
`del` are ever applied to it, so it is an association list observed only
through `lookupA`); `access_order` models the `deque`, oldest first. -/

structure LRU (K V : Type) where
  maxsize : Nat
  cache : List (K × V)
  access_order : List K

/-- `LRUCache(maxsize)` freshly constructed. -/
def LRU.empty (K V : Type) (maxsize : Nat) : LRU K V :=
  ⟨maxsize, [], []⟩

/-- `LRUCache.get`: returns the stored value and refreshes recency on a hit. -/
def LRU.get {K V : Type} [DecidableEq K] (c : LRU K V) (k : K) : Option V × LRU K V :=
  match lookupA c.cache k with
  | some v => (some v, ⟨c.maxsize, c.cache, (c.access_order.erase k) ++ [k]⟩)
  | none => (none, c)

/-- `LRUCache.put`: insert/overwrite, evicting the front of `access_order`
when a new key arrives at capacity.  (The `[]` eviction branch is
unreachable whenever the cache is well-formed and `maxsize > 0`.) -/
def LRU.put {K V : Type} [DecidableEq K] (c : LRU K V) (k : K) (v : V) : LRU K V :=
  if (lookupA c.cache k).isSome then
    ⟨c.maxsize, setA c.cache k v, (c.access_order.erase k) ++ [k]⟩
  else if c.maxsize ≤ c.cache.length then
    match c.access_order with
    | [] => ⟨c.maxsize, setA c.cache k v, [k]⟩
    | oldest :: rest => ⟨c.maxsize, setA (eraseKey c.cache oldest) k v, rest ++ [k]⟩
  else
    ⟨c.maxsize, setA c.cache k v, c.access_order ++ [k]⟩

/-- `key in cache` (the `__contains__` method; no recency refresh). -/
def LRU.containsKey {K V : Type} [DecidableEq K] (c : LRU K V) (k : K) : Bool :=
  (lookupA c.cache k).isSome

/-! ## TokenBucket (`ai_judge.py` / `ai_judge_simple.py`, class `TokenBucket`) -/

structure TokenBucket where
  capacity : ℚ
  tokens : ℚ
  refill_rate : ℚ
  last_refill : ℚ

/-- `TokenBucket(capacity, refill_rate)` constructed at time `now`. -/
def TokenBucket.mk0 (capacity refill_rate now : ℚ) : TokenBucket :=
  ⟨capacity, capacity, refill_rate, now⟩

/-- `TokenBucket._refill`, with the wall clock passed explicitly. -/
def TokenBucket.refill (b : TokenBucket) (now : ℚ) : TokenBucket :=
  ⟨b.capacity, min b.capacity (b.tokens + (now - b.last_refill) * b.refill_rate),
    b.refill_rate, now⟩

/-- `TokenBucket.consume`: refill, then subtract on success. -/
def TokenBucket.consume (b : TokenBucket) (now : ℚ) (n : ℚ) : Bool × TokenBucket :=
  let b' := b.refill now
  if n ≤ b'.tokens then
    (true, ⟨b'.capacity, b'.tokens - n, b'.refill_rate, b'.last_refill⟩)
  else
    (false, b')

/-! ## Text primitives -/

/-- Python substring containment `needle in hay` (contiguous). -/
def containsSub (needle : List Char) : List Char → Bool
  | [] => needle.isPrefixOf ([] : List Char)
  | c :: rest => needle.isPrefixOf (c :: rest) || containsSub needle rest

/-- Python `str.strip()` on a list of characters. -/
def strip (l : List Char) : List Char :=
  ((l.dropWhile Char.isWhitespace).reverse.dropWhile Char.isWhitespace).reverse

/-- Python `str.lower()` (ASCII case folding suffices for the texts the
scorer handles: CJK characters and digits are case-invariant). -/
def lower (l : List Char) : List Char :=
  l.map Char.toLower

/-- `n` consecutive characters satisfying `p` starting at the head. -/
def runSat (p : Char → Bool) : Nat → List Char → Bool
  | 0, _ => true
  | _ + 1, [] => false
  | n + 1, c :: rest => p c && runSat p n rest

/-- Some position starts a run of `n` consecutive characters satisfying `p`
(regex `X{n,}` under `re.search`). -/
def hasRun (p : Char → Bool) (n : Nat) : List Char → Bool
  | [] => runSat p n []
  | c :: rest => runSat p n (c :: rest) || hasRun p n rest

/-- Regex `(.)\1{5,}`: some non-newline character occurs ≥ 6 times in a row. -/
def hasRepeatRun : List Char → Bool
  | [] => false
  | c :: rest => (c ≠ '\n' && runSat (fun d => d = c) 5 rest) || hasRepeatRun rest

/-- Regex `\s*\d+` anchored at the head: optional whitespace then a digit. -/
def wsThenDigit : List Char → Bool
  | [] => false
  | c :: rest => if c.isDigit then true else if c.isWhitespace then wsThenDigit rest else false

/-- Regex `QQ[:：]\s*\d+` under `re.search`. -/
def hasQQMarker : List Char → Bool
  | [] => false
  | c :: rest =>
      (match c :: rest with
       | 'Q' :: 'Q' :: s :: t => (s = ':' || s = '：') && wsThenDigit t
       | _ => false) || hasQQMarker rest

/-- The `spam_patterns` list of `KeywordFilter` (identical in both files):
long digit runs, long ASCII-letter runs, a repeated character, runs of
exclamation/period marks, URLs, QQ/WeChat contact markers. -/
def isSpam (l : List Char) : Bool :=
  hasRun Char.isDigit 6 l ||
  hasRun (fun c => ('a' ≤ c && c ≤ 'z') || ('A' ≤ c && c ≤ 'Z')) 10 l ||
  hasRepeatRun l ||
  hasRun (fun c => c = '！' || c = '!') 3 l ||
  hasRun (fun c => c = '。' || c = '.') 3 l ||
  containsSub "http://".data l ||
  containsSub "https://".data l ||
  hasQQMarker l ||
  containsSub "微信:".data l ||
  containsSub "微信：".data l

/-! ## Keyword tables -/

/-- `KeywordFilter.high_value_keywords` of `ai_judge.py`. -/
def aiJudgeHighValue : List (List Char × ℚ) :=
  [("咨询".data, 1), ("预约".data, 1), ("挂号".data, 1), ("看病".data, 1),
   ("价格".data, 9/10), ("多少钱".data, 9/10), ("费用".data, 9/10), ("收费".data, 9/10),
   ("营业时间".data, 8/10), ("上班时间".data, 8/10), ("几点".data, 8/10),
   ("地址".data, 8/10), ("位置".data, 8/10), ("在哪".data, 8/10), ("怎么走".data, 8/10),
   ("电话".data, 7/10), ("联系".data, 7/10), ("微信".data, 7/10),
   ("治疗".data, 9/10), ("调理".data, 9/10), ("中医".data, 8/10), ("针灸".data, 8/10),
   ("推拿".data, 8/10), ("理疗".data, 8/10), ("按摩".data, 8/10),
   ("怎么".data, 6/10), ("可以".data, 5/10), ("能不能".data, 6/10), ("行不行".data, 6/10)]

/-- `KeywordFilter.high_value_keywords` of `ai_judge_simple.py`: the
`HIGH_VALUE_KEYWORDS` config table flattened, every keyword at weight 0.9. -/
def simpleHighValue : List (List Char × ℚ) :=
  [("预约".data, 9/10), ("订位".data, 9/10), ("订桌".data, 9/10), ("定位".data, 9/10),
   ("定桌".data, 9/10), ("挂号".data, 9/10),
   ("价格".data, 9/10), ("多少钱".data, 9/10), ("费用".data, 9/10), ("收费".data, 9/10),
   ("人均".data, 9/10), ("消费".data, 9/10), ("团购".data, 9/10), ("优惠".data, 9/10),
   ("营业时间".data, 9/10), ("上班时间".data, 9/10), ("几点".data, 9/10),
   ("什么时候".data, 9/10), ("开门".data, 9/10), ("关门".data, 9/10),
   ("地址".data, 9/10), ("位置".data, 9/10), ("在哪".data, 9/10), ("怎么走".data, 9/10),
   ("导航".data, 9/10), ("路线".data, 9/10),
   ("推荐".data, 9/10), ("招牌".data, 9/10), ("特色".data, 9/10), ("好吃".data, 9/10),
   ("必点".data, 9/10), ("什么菜".data, 9/10), ("菜品".data, 9/10),
   ("外卖".data, 9/10), ("送餐".data, 9/10), ("配送".data, 9/10), ("叫餐".data, 9/10),
   ("打包".data, 9/10),
   ("电话".data, 9/10), ("联系".data, 9/10), ("微信".data, 9/10), ("客服".data, 9/10)]

/-- `KeywordFilter.negative_keywords` (identical in both files). -/
def negativeKeywords : List (List Char × ℚ) :=
  [("哈哈".data, -(5/10)), ("呵呵".data, -(5/10)), ("嘿嘿".data, -(5/10)),
   ("666".data, -(5/10)), ("999".data, -(5/10)), ("牛批".data, -(3/10)),
   ("厉害".data, -(3/10)), ("牛".data, -(3/10)), ("棒".data, -(3/10)),
   ("刷屏".data, -1), ("广告".data, -1), ("加群".data, -1),
   ("推广".data, -1), ("代理".data, -1), ("招聘".data, -1)]

/-- Summing the weights of every keyword contained in the content
(the `for keyword, weight in ...: if keyword in content: score += weight`
loops of `calculate_score`). -/
def keywordTotal (tbl : List (List Char × ℚ)) (c : List Char) : ℚ :=
  tbl.foldl (fun acc kv => if containsSub kv.1 c then acc + kv.2 else acc) 0

/-- `KeywordFilter.calculate_score`, parametrised by the high-value table
(the two source files differ only in that table). -/
def calculate_score (hv : List (List Char × ℚ)) (content : List Char) : ℚ :=
  if (strip content).length < 2 then 0
  else
    let c := lower (strip content)
    if isSpam c then 0
    else
      max 0 (min 1 (keywordTotal hv c + keywordTotal negativeKeywords c +
        min (2/10) ((c.length : ℚ) / 100)))

/-! ## LocalClassifier -/

/-- Regex `A.*B` under `re.search`, anchored: `.*` then `B` at the head
(`.` does not match a newline). -/
def dotStarThen (b : List Char) : List Char → Bool
  | [] => b.isPrefixOf ([] : List Char)
  | c :: rest => b.isPrefixOf (c :: rest) || (c ≠ '\n' && dotStarThen b rest)

/-- Regex `A.*B` under `re.search`: `A` somewhere, then `B` later with no
newline in between. -/
def matchThen (a b : List Char) : List Char → Bool
  | [] => a.isPrefixOf ([] : List Char) && dotStarThen b ([] : List Char)
  | c :: rest =>
      (a.isPrefixOf (c :: rest) && dotStarThen b ((c :: rest).drop a.length)) ||
      matchThen a b rest

/-- The match results of the nine `question_patterns` of `LocalClassifier`
against the content.  A pattern `X[^0-9]*` matches iff `X` occurs (the
`[^0-9]*` tail may be empty). -/
def questionPats (content : List Char) : List Bool :=
  [content.contains '？' || content.contains '?',
   containsSub "怎么".data content,
   containsSub "什么".data content,
   containsSub "哪里".data content,
   containsSub "几点".data content,
   containsSub "多少".data content,
   matchThen "可以".data "吗".data content,
   matchThen "能".data "吗".data content,
   matchThen "有".data "吗".data content]

/-- `LocalClassifier._calculate_question_score`: 0.3 per matching pattern,
capped at 1. -/
def question_score (content : List Char) : ℚ :=
  min 1 ((questionPats content).foldl (fun acc m => if m then acc + 3/10 else acc) 0)

/-- `LocalClassifier.classify`, parametrised like `calculate_score`. -/
def classify (hv : List (List Char × ℚ)) (content : List Char) : ℚ :=
  if content.isEmpty then 0
  else min 1 (calculate_score hv content * (7/10) + question_score content * (3/10))

/-! ## Barrage events and funnel results -/

/-- A barrage event as consumed by the funnel (`barrage.get('type')`,
`'content'`, `'user_id'`, `'timestamp'`). -/
structure Barrage where
  type : List Char
  content : List Char
  user_id : List Char
  timestamp : ℚ

inductive ProcessAction where
  | IGNORE
  | PROCESS
  | DEFER
  | BATCH
deriving DecidableEq

structure ProcessResult where
  action : ProcessAction
  confidence : ℚ
  reason : List Char
  delay : ℚ
deriving DecidableEq

/-- Dedup fingerprints: `f"content_{md5(content)[:8]}"` and
`f"user_{user_id}_{md5(content)[:8]}"`.  Modelled with the content itself
in place of its md5 prefix (for equal contents the keys coincide exactly as
in the source; the claims under study only concern equal contents). -/
inductive DedupKey where
  | contentK (content : List Char)
  | userK (user_id : List Char) (content : List Char)
deriving DecidableEq

/-- The user-fingerprint half of `SmartBarrageProcessor._is_duplicate`,
reached when the content fingerprint did not flag a duplicate: check the
`user_{user_id}_{hash}` key, and on a miss record both fingerprints. -/
def dedupUserStep (c1 : LRU DedupKey ℚ) (b : Barrage) : Bool × LRU DedupKey ℚ :=
  if c1.containsKey (DedupKey.userK b.user_id b.content) then (true, c1)
  else
    (false, (c1.put (DedupKey.contentK b.content) b.timestamp).put
      (DedupKey.userK b.user_id b.content) b.timestamp)

/-- `SmartBarrageProcessor._is_duplicate` (identical in both files),
acting on the dedup cache; `window` is `self.dedup_window` (300).  The
content-fingerprint lookup refreshes recency (it uses `get`); the
user-fingerprint check uses `in` only. -/
def is_duplicate (window : ℚ) (c0 : LRU DedupKey ℚ) (b : Barrage) : Bool × LRU DedupKey ℚ :=
  match c0.get (DedupKey.contentK b.content) with
  | (some last, c1) =>
      if b.timestamp - last < window then (true, c1) else dedupUserStep c1 b
  | (none, _) => dedupUserStep c0 b

/-- The emoji character class of `_is_pure_emoji`. -/
def isEmojiChar (c : Char) : Bool :=
  (0x1F600 ≤ c.val && c.val ≤ 0x1F64F) ||
  (0x1F300 ≤ c.val && c.val ≤ 0x1F5FF) ||
  (0x1F680 ≤ c.val && c.val ≤ 0x1F6FF) ||
  (0x1F1E0 ≤ c.val && c.val ≤ 0x1F1FF)

/-- `SmartBarrageProcessor._is_pure_emoji`: strip the emoji glyphs, trim,
and test for emptiness. -/
def is_pure_emoji (content : List Char) : Bool :=
  (strip (content.filter (fun c => !isEmojiChar c))).isEmpty

/-- `SmartBarrageProcessor._basic_filter` of `ai_judge_simple.py`
(max length 500; `ai_judge.py` uses 200). -/
def basic_filter (b : Barrage) : Bool :=
  if b.type ≠ "chat".data ∧ b.type ≠ "emoji_chat".data then false
  else
    let content := strip b.content
    if content.isEmpty ∨ content.length < 2 ∨ 500 < content.length then false
    else if is_pure_emoji content then false
    else true

/-- The inline `high_value_keywords` override list of
`SmartBarrageProcessor.process_barrage` (`ai_judge_simple.py`, step 3). -/
def forcedKeywords : List (List Char) :=
  ["测试".data, "咨询".data, "预约".data, "价格".data, "多少钱".data,
   "营业时间".data, "地址".data, "电话".data, "怎么".data,
   "链接".data, "套餐".data, "元".data, "包含".data, "荤".data, "素".data,
   "主食".data, "锅底".data, "蘸料".data, "门店".data,
   "双人餐".data, "三人餐".data, "四人餐".data, "全国".data, "导航".data,
   "今天拍".data]

/-- The mutable state owned by `SmartBarrageProcessor` in
`ai_judge_simple.py`. -/
structure Processor where
  dedup_cache : LRU DedupKey ℚ
  rate_limiter : TokenBucket
  dedup_window : ℚ

/-- `AI_JUDGE_CONFIG["keyword_threshold"]`. -/
def keywordThreshold : ℚ := 5/100

/-- `AI_JUDGE_CONFIG["local_score_threshold"]`. -/
def localScoreThreshold : ℚ := 2/10

/-- `SmartBarrageProcessor.process_barrage` of `ai_judge_simple.py`:
the seven-gate decision funnel.  `now` is the wall clock read by the token
bucket's refill. -/
def process_barrage (p : Processor) (b : Barrage) (now : ℚ) : ProcessResult × Processor :=
  if ¬ basic_filter b then
    (⟨ProcessAction.IGNORE, 0, "basic_filter".data, 0⟩, p)
  else
    match is_duplicate p.dedup_window p.dedup_cache b with
    | (true, c1) =>
        (⟨ProcessAction.IGNORE, 0, "duplicate".data, 0⟩, ⟨c1, p.rate_limiter, p.dedup_window⟩)
    | (false, c1) =>
        let p1 : Processor := ⟨c1, p.rate_limiter, p.dedup_window⟩
        if forcedKeywords.any (fun kw => containsSub kw b.content) then
          (⟨ProcessAction.PROCESS, 1, "high_value_keyword_match".data, 0⟩, p1)
        else
          let ks := calculate_score simpleHighValue b.content
          if ks < keywordThreshold then
            (⟨ProcessAction.IGNORE, 0, "low_keyword_score".data, 0⟩, p1)
          else
            let ls := classify simpleHighValue b.content
            if ls < localScoreThreshold then
              (⟨ProcessAction.IGNORE, 0, "low_local_score".data, 0⟩, p1)
            else
              match p.rate_limiter.consume now 1 with
              | (false, rl) =>
                  (⟨ProcessAction.DEFER, 0, "rate_limit".data, 2⟩, ⟨c1, rl, p.dedup_window⟩)
              | (true, rl) =>
                  if 8/10 < ls then
                    (⟨ProcessAction.PROCESS, ls, [], 0⟩, ⟨c1, rl, p.dedup_window⟩)
                  else
                    (⟨ProcessAction.BATCH, ls, [], 0⟩, ⟨c1, rl, p.dedup_window⟩)

/-! ## SmartBatchProcessor (`ai_judge.py`) -/

/-- `AIJudgeResult` as far as the batch selector reads it. -/
structure AIJudgeResult where
  has_value : Bool
  content : List Char
  confidence : ℚ
deriving DecidableEq

/-- The selection loop of `SmartBatchProcessor._process_batch`:
`best_score` starts at 0 and only a strictly larger confidence of a
`has_value` result replaces the current best. -/
def bestStep (acc : Option AIJudgeResult × ℚ) (r : Option AIJudgeResult) :
    Option AIJudgeResult × ℚ :=
  match r with
  | some res => if res.has_value && acc.2 < res.confidence then (some res, res.confidence) else acc
  | none => acc

def bestOf (results : List (Option AIJudgeResult)) : Option AIJudgeResult × ℚ :=
  results.foldl bestStep (none, 0)

/-- The window state of `SmartBatchProcessor`. -/
structure BatchState where
  batch_size : Nat
  max_wait_time : ℚ
  current_batch : List Barrage
  last_process_time : ℚ

/-- `SmartBatchProcessor._process_batch`, with the external oracle call
(`ai_judge.batch_judge_barrages`) supplied as the function `judge`; the
selected best result is returned in place of the generated reply text
(reply generation is an external collaborator). -/
def process_batch (st : BatchState) (judge : List Barrage → List (Option AIJudgeResult))
    (now : ℚ) : Option AIJudgeResult × BatchState :=
  if st.current_batch.isEmpty then (none, st)
  else
    let best := (bestOf (judge st.current_batch)).1
    (best, ⟨st.batch_size, st.max_wait_time, [], now⟩)

/-- `SmartBatchProcessor.add_to_batch`. -/
def add_to_batch (st : BatchState) (b : Barrage)
    (judge : List Barrage → List (Option AIJudgeResult)) (now : ℚ) :
    Option AIJudgeResult × BatchState :=
  let st1 : BatchState := ⟨st.batch_size, st.max_wait_time, st.current_batch ++ [b],
    st.last_process_time⟩
  if st.batch_size ≤ st1.current_batch.length ∨ st.max_wait_time < now - st.last_process_time
  then process_batch st1 judge now
  else (none, st1)

/-! ## Auxiliary definitions used by the statements -/

/-- Weighted sum of a match mask against the weights (reference form of the
`calculate_score` keyword loops). -/
def maskSum : List Bool → List ℚ → ℚ
  | b :: bs, w :: ws => (cond b w 0) + maskSum bs ws
  | _, _ => 0

/-- Iterated `TokenBucket.consume(1)` at a fixed instant. -/
def consumeIter (now : ℚ) : Nat → TokenBucket → TokenBucket
  | 0, b => b
  | k + 1, b => consumeIter now k (b.consume now 1).2

/-- Well-formedness of an `LRU` value: the dict has no duplicate keys, the
deque has no duplicates, deque membership coincides with dict membership,
and the two sizes agree.  It holds for the freshly constructed cache and is
preserved by `get` and `put`. -/
def WF {K V : Type} [DecidableEq K] (c : LRU K V) : Prop :=
  (c.cache.map Prod.fst).Nodup ∧ c.access_order.Nodup ∧
  (∀ k, k ∈ c.access_order ↔ (lookupA c.cache k).isSome = true) ∧
  c.cache.length = c.access_order.length

/-- A client-visible cache operation. -/
inductive CacheOp (K V : Type) where
  | get (k : K)
  | put (k : K) (v : V)

def applyOp {K V : Type} [DecidableEq K] (c : LRU K V) : CacheOp K V → LRU K V
  | CacheOp.get k => (c.get k).2
  | CacheOp.put k v => c.put k v

def applyOps {K V : Type} [DecidableEq K] (c : LRU K V) (ops : List (CacheOp K V)) : LRU K V :=
  ops.foldl applyOp c

/-- Insert a list of keys in order, all with the same value. -/
def putKeys {K V : Type} [DecidableEq K] (c : LRU K V) (ks : List K) (v : V) : LRU K V :=
  ks.foldl (fun c k => c.put k v) c

/-! # Lemmas and theorems -/

/-! ## Association-list lemmas -/

theorem lookupA_append {K V : Type} [DecidableEq K] (l₁ l₂ : List (K × V)) (k : K) :
    lookupA (l₁ ++ l₂) k = ((lookupA l₁ k).or (lookupA l₂ k)) := by
  induction l₁ with
  | nil => simp [lookupA]
  | cons p t ih =>
      obtain ⟨k', v⟩ := p
      by_cases h : k' = k <;> simp [lookupA, h, ih]

theorem lookupA_eraseKey_self {K V : Type} [DecidableEq K] (l : List (K × V)) (k : K) :
    lookupA (eraseKey l k) k = none := by
  induction l with
  | nil => rfl
  | cons p t ih =>
      obtain ⟨k', v⟩ := p
      by_cases h : k' = k
      · simpa [eraseKey, h] using ih
      · simpa [eraseKey, lookupA, h] using ih

theorem lookupA_eraseKey_ne {K V : Type} [DecidableEq K] (l : List (K × V)) (k k' : K)
    (h : k' ≠ k) : lookupA (eraseKey l k) k' = lookupA l k' := by
  induction l with
  | nil => rfl
  | cons p t ih =>
      obtain ⟨k₀, v⟩ := p
      by_cases hk : k₀ = k
      · subst hk
        simpa [eraseKey, lookupA, Ne.symm h] using ih
      · by_cases hk' : k₀ = k'
        · simp [eraseKey, lookupA, hk, hk', h]
        · simpa [eraseKey, lookupA, hk, hk'] using ih

theorem lookupA_setA_self {K V : Type} [DecidableEq K] (l : List (K × V)) (k : K) (v : V) :
    lookupA (setA l k v) k = some v := by
  simp [setA, lookupA_append, lookupA_eraseKey_self, lookupA]

theorem lookupA_setA_ne {K V : Type} [DecidableEq K] (l : List (K × V)) (k k' : K) (v : V)
    (h : k' ≠ k) : lookupA (setA l k v) k' = lookupA l k' := by
  simp [setA, lookupA_append, lookupA_eraseKey_ne l k k' h, lookupA, Ne.symm h]

/-- A key is a member of the key multiset iff `lookupA` finds it. -/
theorem lookupA_isSome_iff_mem {K V : Type} [DecidableEq K] (l : List (K × V)) (k : K) :
    (lookupA l k).isSome = true ↔ k ∈ l.map Prod.fst := by
  induction l with
  | nil => simp [lookupA]
  | cons p t ih =>
      obtain ⟨k', v⟩ := p
      by_cases h : k' = k
      · subst h
        simp [lookupA]
      · simp [lookupA, h, Ne.symm h, ih]

theorem lookupA_eq_none_iff_not_mem {K V : Type} [DecidableEq K] (l : List (K × V)) (k : K) :
    lookupA l k = none ↔ k ∉ l.map Prod.fst := by
  rw [← lookupA_isSome_iff_mem]
  cases lookupA l k <;> simp


/-! ## Scorer lemmas -/

theorem score_foldl_shift (c : List Char) (tbl : List (List Char × ℚ)) (acc : ℚ) :
    tbl.foldl (fun a kv => if containsSub kv.1 c then a + kv.2 else a) acc =
      acc + tbl.foldl (fun a kv => if containsSub kv.1 c then a + kv.2 else a) 0 := by
  induction tbl generalizing acc with
  | nil => simp
  | cons kv rest ih =>
      by_cases h : containsSub kv.1 c = true
      · simp only [List.foldl_cons, h, if_pos]
        rw [ih (acc + kv.2), ih (0 + kv.2)]
        ring
      · simp only [List.foldl_cons, if_neg h]
        exact ih acc

theorem keywordTotal_mask (tbl : List (List Char × ℚ)) (c : List Char) :
    keywordTotal tbl c =
      maskSum (tbl.map (fun kv => containsSub kv.1 c)) (tbl.map Prod.snd) := by
  induction tbl with
  | nil => rfl
  | cons kv rest ih =>
      unfold keywordTotal at ih ⊢
      rw [List.foldl_cons, score_foldl_shift, List.map_cons, List.map_cons, maskSum, ← ih]
      by_cases h : containsSub kv.1 c = true
      · simp [h]
      · simp [h]

/-- `C1`: for every content string the `ValueScorer`
(`KeywordFilter.calculate_score` of `ai_judge.py`) returns a score in
`[0,1]`; if the trimmed content is shorter than 2 characters the score is
exactly 0; and if the trimmed, lower-cased content matches any spam
pattern the score is exactly 0, regardless of which high-value keywords
the content contains. -/
theorem C1_valueScorer_range_and_spam (content : List Char) :
    0 ≤ calculate_score aiJudgeHighValue content ∧
    calculate_score aiJudgeHighValue content ≤ 1 ∧
    ((strip content).length < 2 → calculate_score aiJudgeHighValue content = 0) ∧
    (isSpam (lower (strip content)) = true → calculate_score aiJudgeHighValue content = 0) := by
  by_cases h1 : (strip content).length < 2
  · simp [calculate_score, h1]
  · by_cases h2 : isSpam (lower (strip content)) = true
    · simp [calculate_score, h1, h2]
    · have hs : calculate_score aiJudgeHighValue content
          = max 0 (min 1 (keywordTotal aiJudgeHighValue (lower (strip content)) +
              keywordTotal negativeKeywords (lower (strip content)) +
              min (2/10) (((lower (strip content)).length : ℚ) / 100))) := by
        simp [calculate_score, h1, h2]
      refine ⟨?_, ?_, fun h => absurd h h1, fun h => absurd h h2⟩
      · rw [hs]
        exact le_max_left 0 _
      · rw [hs]
        exact max_le (by norm_num) (min_le_left _ _)

/-- Witness for `C1`: the content `"咨询!!!"` contains the top-weight
keyword `咨询` yet matches the exclamation-run spam pattern, so it scores
exactly 0. -/
theorem C1_witness :
    isSpam (lower (strip "咨询!!!".data)) = true ∧
    calculate_score aiJudgeHighValue "咨询!!!".data = 0 :=
  ⟨by decide, (C1_valueScorer_range_and_spam "咨询!!!".data).2.2.2 (by decide)⟩

/-! ## TokenBucket lemmas -/

theorem TokenBucket.consume_def (b : TokenBucket) (now n : ℚ) :
    b.consume now n =
      if n ≤ (b.refill now).tokens then
        (true, ⟨b.capacity, (b.refill now).tokens - n, b.refill_rate, now⟩)
      else (false, b.refill now) := rfl

theorem TokenBucket.refill_tokens_def (b : TokenBucket) (now : ℚ) :
    (b.refill now).tokens = min b.capacity (b.tokens + (now - b.last_refill) * b.refill_rate) :=
  rfl

theorem consumeIter_zero_elapsed (t0 cap r : ℚ) :
    ∀ (k : Nat) (tk : ℚ), (k : ℚ) ≤ tk → tk ≤ cap →
      consumeIter t0 k ⟨cap, tk, r, t0⟩ = ⟨cap, tk - k, r, t0⟩ := by
  intro k
  induction k with
  | zero =>
      intro tk _ _
      simp [consumeIter]
  | succ k ih =>
      intro tk hk hc
      have h1 : (1 : ℚ) ≤ tk := by
        have hk1 : ((k : ℚ) + 1) ≤ tk := by push_cast at hk ⊢; linarith
        have hk0 : (0 : ℚ) ≤ (k : ℚ) := Nat.cast_nonneg k
        linarith
      have hrt : (TokenBucket.refill ⟨cap, tk, r, t0⟩ t0).tokens = tk := by
        rw [TokenBucket.refill_tokens_def]
        show min cap (tk + (t0 - t0) * r) = tk
        rw [show tk + (t0 - t0) * r = tk by ring]
        exact min_eq_right hc
      have hstep : (TokenBucket.consume ⟨cap, tk, r, t0⟩ t0 1).2 = ⟨cap, tk - 1, r, t0⟩ := by
        rw [TokenBucket.consume_def, if_pos (by rw [hrt]; exact h1)]
        show (⟨cap, (TokenBucket.refill ⟨cap, tk, r, t0⟩ t0).tokens - 1, r, t0⟩ : TokenBucket)
          = ⟨cap, tk - 1, r, t0⟩
        rw [hrt]
      rw [consumeIter, hstep, ih (tk - 1) (by push_cast at hk ⊢; linarith) (by linarith)]
      have heq : tk - 1 - (k : ℚ) = tk - ((k : ℚ) + 1) := by ring
      rw [heq]
      push_cast
      ring_nf

/-- `C3`: `TokenBucket.consume(n)` refills to
`min(capacity, tokens + elapsed·refillRate)`, stamps `lastRefill = now`,
succeeds and subtracts `n` exactly when the refilled count reaches `n` and
otherwise leaves the refilled count unchanged; under non-decreasing clocks
the token count stays in `[0, capacity]`; a fresh bucket admits exactly
`capacity` zero-elapsed consumptions and then rejects; and after waiting
`1/refillRate` seconds exactly one further token is available. -/
theorem C3_tokenBucket_behaviour :
    (∀ (b : TokenBucket) (now n : ℚ),
      ((b.consume now n).1 = true ↔ n ≤ (b.refill now).tokens) ∧
      (b.refill now).tokens = min b.capacity (b.tokens + (now - b.last_refill) * b.refill_rate) ∧
      (b.consume now n).2.last_refill = now ∧
      (b.consume now n).2.tokens =
        (if n ≤ (b.refill now).tokens then (b.refill now).tokens - n
         else (b.refill now).tokens)) ∧
    (∀ (b : TokenBucket) (now n : ℚ), 0 ≤ b.tokens → b.tokens ≤ b.capacity →
      0 ≤ b.refill_rate → b.last_refill ≤ now → 0 ≤ n →
      0 ≤ (b.consume now n).2.tokens ∧ (b.consume now n).2.tokens ≤ b.capacity) ∧
    (∀ (c : Nat) (r t0 : ℚ), 1 ≤ c →
      (∀ k : Nat, k < c →
        ((consumeIter t0 k (TokenBucket.mk0 c r t0)).consume t0 1).1 = true) ∧
      (consumeIter t0 c (TokenBucket.mk0 c r t0)).tokens = 0 ∧
      ((consumeIter t0 c (TokenBucket.mk0 c r t0)).consume t0 1).1 = false) ∧
    (∀ (c : Nat) (r t0 : ℚ), 1 ≤ c → 0 < r →
      ((consumeIter t0 c (TokenBucket.mk0 c r t0)).consume (t0 + 1/r) 1).1 = true ∧
      ((consumeIter t0 c (TokenBucket.mk0 c r t0)).consume (t0 + 1/r) 1).2.tokens = 0) := by
  refine ⟨?_, ?_, ?_, ?_⟩
  · intro b now n
    by_cases h : n ≤ (b.refill now).tokens
    · rw [TokenBucket.consume_def, if_pos h]
      refine ⟨by simp [h], rfl, rfl, ?_⟩
      rw [if_pos h]
    · rw [TokenBucket.consume_def, if_neg h]
      refine ⟨by simp [h], rfl, rfl, ?_⟩
      rw [if_neg h]
  · intro b now n h0 hc hr hl hn
    have helap : 0 ≤ (now - b.last_refill) * b.refill_rate := mul_nonneg (by linarith) hr
    have hcap0 : 0 ≤ b.capacity := le_trans h0 hc
    have href0 : 0 ≤ (b.refill now).tokens := by
      rw [TokenBucket.refill_tokens_def]
      exact le_min hcap0 (by linarith)
    have hrefc : (b.refill now).tokens ≤ b.capacity := by
      rw [TokenBucket.refill_tokens_def]
      exact min_le_left _ _
    by_cases h : n ≤ (b.refill now).tokens
    · rw [TokenBucket.consume_def, if_pos h]
      constructor
      · show 0 ≤ (b.refill now).tokens - n
        linarith
      · show (b.refill now).tokens - n ≤ b.capacity
        linarith
    · rw [TokenBucket.consume_def, if_neg h]
      exact ⟨href0, hrefc⟩
  · intro c r t0 hc
    have hiter := consumeIter_zero_elapsed t0 (c : ℚ) r
    refine ⟨?_, ?_, ?_⟩
    · intro k hk
      show ((consumeIter t0 k ⟨(c : ℚ), (c : ℚ), r, t0⟩).consume t0 1).1 = true
      rw [hiter k (c : ℚ) (by exact_mod_cast Nat.le_of_lt hk) le_rfl]
      have h1 : (1 : ℚ) ≤ (c : ℚ) - (k : ℚ) := by
        have hk1 : ((k : ℚ) + 1) ≤ (c : ℚ) := by exact_mod_cast hk
        linarith
      have hrt : (TokenBucket.refill ⟨(c : ℚ), (c : ℚ) - (k : ℚ), r, t0⟩ t0).tokens
          = (c : ℚ) - (k : ℚ) := by
        rw [TokenBucket.refill_tokens_def]
        show min (c : ℚ) ((c : ℚ) - (k : ℚ) + (t0 - t0) * r) = (c : ℚ) - (k : ℚ)
        rw [show (c : ℚ) - (k : ℚ) + (t0 - t0) * r = (c : ℚ) - (k : ℚ) by ring]
        exact min_eq_right (by have hk0 := Nat.cast_nonneg (α := ℚ) k; linarith)
      rw [TokenBucket.consume_def, if_pos (by rw [hrt]; exact h1)]
    · show (consumeIter t0 c ⟨(c : ℚ), (c : ℚ), r, t0⟩).tokens = 0
      rw [hiter c (c : ℚ) le_rfl le_rfl]
      show (c : ℚ) - (c : ℚ) = 0
      ring
    · show ((consumeIter t0 c ⟨(c : ℚ), (c : ℚ), r, t0⟩).consume t0 1).1 = false
      rw [hiter c (c : ℚ) le_rfl le_rfl]
      have hrt : (TokenBucket.refill ⟨(c : ℚ), (c : ℚ) - (c : ℚ), r, t0⟩ t0).tokens = 0 := by
        rw [TokenBucket.refill_tokens_def]
        show min (c : ℚ) ((c : ℚ) - (c : ℚ) + (t0 - t0) * r) = 0
        rw [show (c : ℚ) - (c : ℚ) + (t0 - t0) * r = 0 by ring]
        exact min_eq_right (by exact_mod_cast Nat.zero_le c)
      rw [TokenBucket.consume_def, if_neg (by rw [hrt]; norm_num)]
  · intro c r t0 hc hr
    have hiter := consumeIter_zero_elapsed t0 (c : ℚ) r c (c : ℚ) le_rfl le_rfl
    have hrt : (TokenBucket.refill ⟨(c : ℚ), (c : ℚ) - (c : ℚ), r, t0⟩ (t0 + 1 / r)).tokens
        = 1 := by
      rw [TokenBucket.refill_tokens_def]
      show min (c : ℚ) ((c : ℚ) - (c : ℚ) + (t0 + 1 / r - t0) * r) = 1
      rw [show (c : ℚ) - (c : ℚ) + (t0 + 1 / r - t0) * r = (1 / r) * r by ring,
        one_div_mul_cancel (ne_of_gt hr)]
      exact min_eq_right (by exact_mod_cast hc)
    have hcond : (1 : ℚ) ≤ (TokenBucket.refill ⟨(c : ℚ), (c : ℚ) - (c : ℚ), r, t0⟩
        (t0 + 1 / r)).tokens := by
      rw [hrt]
    constructor
    · show ((consumeIter t0 c ⟨(c : ℚ), (c : ℚ), r, t0⟩).consume (t0 + 1 / r) 1).1 = true
      rw [hiter, TokenBucket.consume_def, if_pos hcond]
    · show ((consumeIter t0 c ⟨(c : ℚ), (c : ℚ), r, t0⟩).consume (t0 + 1 / r) 1).2.tokens = 0
      rw [hiter, TokenBucket.consume_def, if_pos hcond]
      show (TokenBucket.refill ⟨(c : ℚ), (c : ℚ) - (c : ℚ), r, t0⟩ (t0 + 1 / r)).tokens - 1 = 0
      rw [hrt]
      ring

/-- Witness for `C3`: a bucket of capacity 2, refill rate 5, constructed at
time 0: two zero-elapsed consumptions succeed, the third fails, and after
waiting `1/5` seconds one further token is available. -/
theorem C3_witness :
    ((consumeIter 0 0 (TokenBucket.mk0 ((2 : Nat) : ℚ) 5 0)).consume 0 1).1 = true ∧
    ((consumeIter 0 2 (TokenBucket.mk0 ((2 : Nat) : ℚ) 5 0)).consume 0 1).1 = false ∧
    ((consumeIter 0 2 (TokenBucket.mk0 ((2 : Nat) : ℚ) 5 0)).consume (0 + 1/5) 1).1 = true := by
  have h := C3_tokenBucket_behaviour
  exact ⟨(h.2.2.1 2 5 0 (by norm_num)).1 0 (by norm_num),
    (h.2.2.1 2 5 0 (by norm_num)).2.2,
    (h.2.2.2 2 5 0 (by norm_num) (by norm_num)).1⟩

/-! ## Dedup lemmas -/

theorem eraseKey_of_not_mem {K V : Type} [DecidableEq K] (l : List (K × V)) (k : K)
    (h : lookupA l k = none) : eraseKey l k = l := by
  induction l with
  | nil => rfl
  | cons p t ih =>
      obtain ⟨k', v⟩ := p
      by_cases hk : k' = k
      · rw [lookupA, if_pos hk] at h
        exact absurd h (by simp)
      · rw [lookupA, if_neg hk] at h
        rw [eraseKey, if_neg hk, ih h]

/-- A fresh key inserted below capacity is appended to dict and deque. -/
theorem LRU.put_fresh {K V : Type} [DecidableEq K] (c : LRU K V) (k : K) (v : V)
    (h : lookupA c.cache k = none) (hroom : c.cache.length < c.maxsize) :
    c.put k v = ⟨c.maxsize, c.cache ++ [(k, v)], c.access_order ++ [k]⟩ := by
  rw [LRU.put, if_neg (by simp [h]), if_neg (by omega)]
  rw [setA, eraseKey_of_not_mem c.cache k h]

/-- Overwriting a present key touches only that binding. -/
theorem LRU.put_overwrite {K V : Type} [DecidableEq K] (c : LRU K V) (k : K) (v : V)
    (h : (lookupA c.cache k).isSome = true) :
    c.put k v = ⟨c.maxsize, setA c.cache k v, (c.access_order.erase k) ++ [k]⟩ := by
  rw [LRU.put, if_pos h]

theorem eraseKey_length_le {K V : Type} [DecidableEq K] (l : List (K × V)) (k : K) :
    (eraseKey l k).length ≤ l.length := by
  induction l with
  | nil => simp [eraseKey]
  | cons p t ih =>
      obtain ⟨k', v⟩ := p
      by_cases hk : k' = k
      · rw [eraseKey, if_pos hk]
        exact le_trans ih (by simp)
      · rw [eraseKey, if_neg hk]
        simpa using ih

theorem setA_length_le {K V : Type} [DecidableEq K] (l : List (K × V)) (k : K) (v : V)
    (h : (lookupA l k).isSome = true) : (setA l k v).length ≤ l.length := by
  rw [setA]
  have hlt : (eraseKey l k).length < l.length := by
    induction l with
    | nil => simp [lookupA] at h
    | cons p t ih =>
        obtain ⟨k', v'⟩ := p
        by_cases hk : k' = k
        · rw [eraseKey, if_pos hk]
          exact Nat.lt_succ_of_le (eraseKey_length_le t k)
        · rw [lookupA, if_neg hk] at h
          rw [eraseKey, if_neg hk]
          exact Nat.succ_lt_succ (ih h)
  simp only [List.length_append, List.length_cons, List.length_nil]
  omega

theorem LRU.get_none {K V : Type} [DecidableEq K] (c : LRU K V) (k : K)
    (h : lookupA c.cache k = none) : c.get k = (none, c) := by
  simp only [LRU.get, h]

theorem LRU.get_some {K V : Type} [DecidableEq K] (c : LRU K V) (k : K) (v : V)
    (h : lookupA c.cache k = some v) :
    c.get k = (some v, ⟨c.maxsize, c.cache, (c.access_order.erase k) ++ [k]⟩) := by
  simp only [LRU.get, h]

theorem is_duplicate_content_none (window : ℚ) (c : LRU DedupKey ℚ) (b : Barrage)
    (h : lookupA c.cache (DedupKey.contentK b.content) = none) :
    is_duplicate window c b = dedupUserStep c b := by
  unfold is_duplicate
  rw [LRU.get_none c _ h]

theorem is_duplicate_content_some (window : ℚ) (c : LRU DedupKey ℚ) (b : Barrage) (t0 : ℚ)
    (h : lookupA c.cache (DedupKey.contentK b.content) = some t0) :
    is_duplicate window c b =
      (if b.timestamp - t0 < window then
        (true, ⟨c.maxsize, c.cache,
          (c.access_order.erase (DedupKey.contentK b.content)) ++ [DedupKey.contentK b.content]⟩)
      else dedupUserStep
        ⟨c.maxsize, c.cache,
          (c.access_order.erase (DedupKey.contentK b.content)) ++ [DedupKey.contentK b.content]⟩
        b) := by
  unfold is_duplicate
  rw [LRU.get_some c _ t0 h]

theorem lookupA_append_of_none {K V : Type} [DecidableEq K] (l1 l2 : List (K × V)) (k : K)
    (h : lookupA l1 k = none) : lookupA (l1 ++ l2) k = lookupA l2 k := by
  rw [lookupA_append, h]
  cases lookupA l2 k <;> rfl

theorem lookupA_append_of_some {K V : Type} [DecidableEq K] (l1 l2 : List (K × V)) (k : K)
    (v : V) (h : lookupA l1 k = some v) : lookupA (l1 ++ l2) k = some v := by
  rw [lookupA_append, h]
  rfl

theorem lookupA_single_self {K V : Type} [DecidableEq K] (k : K) (v : V) :
    lookupA [(k, v)] k = some v := by
  rw [lookupA, if_pos rfl]

theorem lookupA_single_ne {K V : Type} [DecidableEq K] (k k' : K) (v : V) (h : k ≠ k') :
    lookupA [(k, v)] k' = none := by
  rw [lookupA, if_neg h]
  rfl

/-- On a user-fingerprint miss, `dedupUserStep` answers `False`, records
both fingerprints at the event timestamp and touches no other binding
(provided the insertions do not overflow the cache). -/
theorem dedupUserStep_records (c : LRU DedupKey ℚ) (b : Barrage)
    (huk : lookupA c.cache (DedupKey.userK b.user_id b.content) = none)
    (hroom : c.cache.length + 2 ≤ c.maxsize) :
    (dedupUserStep c b).1 = false ∧
    lookupA (dedupUserStep c b).2.cache (DedupKey.contentK b.content) = some b.timestamp ∧
    lookupA (dedupUserStep c b).2.cache (DedupKey.userK b.user_id b.content)
      = some b.timestamp ∧
    (∀ k, k ≠ DedupKey.contentK b.content → k ≠ DedupKey.userK b.user_id b.content →
      lookupA (dedupUserStep c b).2.cache k = lookupA c.cache k) := by
  have hne : DedupKey.userK b.user_id b.content ≠ DedupKey.contentK b.content := by
    intro h
    exact DedupKey.noConfusion h
  have hcont : ¬ (c.containsKey (DedupKey.userK b.user_id b.content) = true) := by
    rw [LRU.containsKey, huk]
    simp
  rw [dedupUserStep, if_neg hcont]
  rcases hck : lookupA c.cache (DedupKey.contentK b.content) with _ | t0
  · -- content key absent: two fresh appends
    have hput1 := LRU.put_fresh c (DedupKey.contentK b.content) b.timestamp hck (by omega)
    have hcache1 : (c.put (DedupKey.contentK b.content) b.timestamp).cache
        = c.cache ++ [(DedupKey.contentK b.content, b.timestamp)] := by
      rw [hput1]
    have hlen1 : (c.put (DedupKey.contentK b.content) b.timestamp).cache.length
        < (c.put (DedupKey.contentK b.content) b.timestamp).maxsize := by
      rw [hput1]
      simp only [List.length_append, List.length_cons, List.length_nil]
      omega
    have huk1 : lookupA (c.put (DedupKey.contentK b.content) b.timestamp).cache
        (DedupKey.userK b.user_id b.content) = none := by
      rw [hcache1, lookupA_append_of_none _ _ _ huk, lookupA_single_ne _ _ _ hne.symm]
    have hput2 := LRU.put_fresh (c.put (DedupKey.contentK b.content) b.timestamp)
      (DedupKey.userK b.user_id b.content) b.timestamp huk1 hlen1
    have hfinal : ((c.put (DedupKey.contentK b.content) b.timestamp).put
        (DedupKey.userK b.user_id b.content) b.timestamp).cache
        = (c.cache ++ [(DedupKey.contentK b.content, b.timestamp)]) ++
            [(DedupKey.userK b.user_id b.content, b.timestamp)] := by
      rw [hput2]
      rw [hcache1]
    refine ⟨rfl, ?_, ?_, ?_⟩
    · show lookupA ((c.put (DedupKey.contentK b.content) b.timestamp).put
        (DedupKey.userK b.user_id b.content) b.timestamp).cache (DedupKey.contentK b.content)
        = some b.timestamp
      rw [hfinal]
      rw [lookupA_append_of_some _ _ _ _
        (by rw [lookupA_append_of_none _ _ _ hck, lookupA_single_self])]
    · show lookupA ((c.put (DedupKey.contentK b.content) b.timestamp).put
        (DedupKey.userK b.user_id b.content) b.timestamp).cache
        (DedupKey.userK b.user_id b.content) = some b.timestamp
      rw [hfinal]
      rw [lookupA_append_of_none _ _ _
        (by rw [lookupA_append_of_none _ _ _ huk, lookupA_single_ne _ _ _ hne.symm]),
        lookupA_single_self]
    · intro k hk1 hk2
      show lookupA ((c.put (DedupKey.contentK b.content) b.timestamp).put
        (DedupKey.userK b.user_id b.content) b.timestamp).cache k = lookupA c.cache k
      rw [hfinal, List.append_assoc]
      rw [lookupA_append]
      have h2 : lookupA ([(DedupKey.contentK b.content, b.timestamp)] ++
          [(DedupKey.userK b.user_id b.content, b.timestamp)]) k = none := by
        rw [lookupA_append_of_none _ _ _ (lookupA_single_ne _ _ _ (fun h => hk1 h.symm)),
          lookupA_single_ne _ _ _ (fun h => hk2 h.symm)]
      rw [h2]
      cases lookupA c.cache k <;> rfl
  · -- content key present: overwritten in place, then a fresh append
    have hsome : (lookupA c.cache (DedupKey.contentK b.content)).isSome = true := by
      rw [hck]
      rfl
    have hput1 := LRU.put_overwrite c (DedupKey.contentK b.content) b.timestamp hsome
    have hcache1 : (c.put (DedupKey.contentK b.content) b.timestamp).cache
        = setA c.cache (DedupKey.contentK b.content) b.timestamp := by
      rw [hput1]
    have hlen1 : (c.put (DedupKey.contentK b.content) b.timestamp).cache.length
        < (c.put (DedupKey.contentK b.content) b.timestamp).maxsize := by
      rw [hput1]
      have hle := setA_length_le c.cache (DedupKey.contentK b.content) b.timestamp hsome
      show (setA c.cache (DedupKey.contentK b.content) b.timestamp).length < c.maxsize
      omega
    have huk1 : lookupA (c.put (DedupKey.contentK b.content) b.timestamp).cache
        (DedupKey.userK b.user_id b.content) = none := by
      rw [hcache1, lookupA_setA_ne _ _ _ _ hne, huk]
    have hput2 := LRU.put_fresh (c.put (DedupKey.contentK b.content) b.timestamp)
      (DedupKey.userK b.user_id b.content) b.timestamp huk1 hlen1
    have hfinal : ((c.put (DedupKey.contentK b.content) b.timestamp).put
        (DedupKey.userK b.user_id b.content) b.timestamp).cache
        = (setA c.cache (DedupKey.contentK b.content) b.timestamp) ++
            [(DedupKey.userK b.user_id b.content, b.timestamp)] := by
      rw [hput2]
      rw [hcache1]
    refine ⟨rfl, ?_, ?_, ?_⟩
    · show lookupA ((c.put (DedupKey.contentK b.content) b.timestamp).put
        (DedupKey.userK b.user_id b.content) b.timestamp).cache (DedupKey.contentK b.content)
        = some b.timestamp
      rw [hfinal, lookupA_append_of_some _ _ _ _ (lookupA_setA_self _ _ _)]
    · show lookupA ((c.put (DedupKey.contentK b.content) b.timestamp).put
        (DedupKey.userK b.user_id b.content) b.timestamp).cache
        (DedupKey.userK b.user_id b.content) = some b.timestamp
      rw [hfinal, lookupA_append_of_none _ _ _
        (by rw [lookupA_setA_ne _ _ _ _ hne, huk]), lookupA_single_self]
    · intro k hk1 hk2
      show lookupA ((c.put (DedupKey.contentK b.content) b.timestamp).put
        (DedupKey.userK b.user_id b.content) b.timestamp).cache k = lookupA c.cache k
      rw [hfinal, lookupA_append, lookupA_setA_ne _ _ _ _ hk1,
        lookupA_single_ne _ _ _ (fun h => hk2 h.symm)]
      cases lookupA c.cache k <;> rfl

theorem dedupUserStep_hit (c : LRU DedupKey ℚ) (b : Barrage)
    (h : (lookupA c.cache (DedupKey.userK b.user_id b.content)).isSome = true) :
    dedupUserStep c b = (true, c) := by
  rw [dedupUserStep, if_pos]
  exact h

theorem dedupUserStep_fst_of_miss (c : LRU DedupKey ℚ) (b : Barrage)
    (h : lookupA c.cache (DedupKey.userK b.user_id b.content) = none) :
    (dedupUserStep c b).1 = false := by
  rw [dedupUserStep, if_neg]
  rw [LRU.containsKey, h]
  simp

/-- `C10`: a `_is_duplicate` call that reports a duplicate writes nothing
to the dedup cache — every stored last-seen timestamp is unchanged — and
consequently a content whose recorded sighting is at least `dedupWindow`
old is admitted again (when the submitting user's own fingerprint is not
cached), rather than being suppressed indefinitely. -/
theorem C10_duplicate_writes_nothing :
    (∀ (window : ℚ) (c : LRU DedupKey ℚ) (b : Barrage),
      (is_duplicate window c b).1 = true → (is_duplicate window c b).2.cache = c.cache) ∧
    (∀ (window : ℚ) (c : LRU DedupKey ℚ) (b : Barrage) (t0 : ℚ),
      lookupA c.cache (DedupKey.contentK b.content) = some t0 →
      ¬ (b.timestamp - t0 < window) →
      lookupA c.cache (DedupKey.userK b.user_id b.content) = none →
      (is_duplicate window c b).1 = false) := by
  constructor
  · intro window c b hdup
    rcases hck : lookupA c.cache (DedupKey.contentK b.content) with _ | t0
    · rw [is_duplicate_content_none window c b hck] at hdup ⊢
      by_cases huk : (lookupA c.cache (DedupKey.userK b.user_id b.content)).isSome = true
      · rw [dedupUserStep_hit c b huk]
      · have hnone : lookupA c.cache (DedupKey.userK b.user_id b.content) = none := by
          cases hx : lookupA c.cache (DedupKey.userK b.user_id b.content)
          · rfl
          · rw [hx] at huk
            simp at huk
        rw [dedupUserStep_fst_of_miss c b hnone] at hdup
        simp at hdup
    · rw [is_duplicate_content_some window c b t0 hck] at hdup ⊢
      by_cases hwin : b.timestamp - t0 < window
      · rw [if_pos hwin]
      · rw [if_neg hwin] at hdup ⊢
        by_cases huk : (lookupA c.cache (DedupKey.userK b.user_id b.content)).isSome = true
        · rw [dedupUserStep_hit ⟨c.maxsize, c.cache,
            (c.access_order.erase (DedupKey.contentK b.content)) ++
              [DedupKey.contentK b.content]⟩ b huk]
        · have hnone : lookupA c.cache (DedupKey.userK b.user_id b.content) = none := by
            cases hx : lookupA c.cache (DedupKey.userK b.user_id b.content)
            · rfl
            · rw [hx] at huk
              simp at huk
          rw [dedupUserStep_fst_of_miss ⟨c.maxsize, c.cache,
            (c.access_order.erase (DedupKey.contentK b.content)) ++
              [DedupKey.contentK b.content]⟩ b hnone] at hdup
          simp at hdup
  · intro window c b t0 hck hwin huk
    rw [is_duplicate_content_some window c b t0 hck, if_neg hwin]
    exact dedupUserStep_fst_of_miss _ b huk

/-- Witness for `C10`: with `你好` recorded at time 0, a repeat at time
100 is reported duplicate with the cache left intact, and a repeat at
time 400 (outside the 300 s window, new user) is admitted. -/
theorem C10_witness :
    (is_duplicate 300
      (⟨1000, [(DedupKey.contentK "你好".data, 0)], [DedupKey.contentK "你好".data]⟩ :
        LRU DedupKey ℚ)
      ⟨"chat".data, "你好".data, "u9".data, 100⟩).1 = true ∧
    (is_duplicate 300
      (⟨1000, [(DedupKey.contentK "你好".data, 0)], [DedupKey.contentK "你好".data]⟩ :
        LRU DedupKey ℚ)
      ⟨"chat".data, "你好".data, "u9".data, 100⟩).2.cache
      = [(DedupKey.contentK "你好".data, 0)] ∧
    (is_duplicate 300
      (⟨1000, [(DedupKey.contentK "你好".data, 0)], [DedupKey.contentK "你好".data]⟩ :
        LRU DedupKey ℚ)
      ⟨"chat".data, "你好".data, "u9".data, 400⟩).1 = false := by
  have hdup : (is_duplicate 300
      (⟨1000, [(DedupKey.contentK "你好".data, 0)], [DedupKey.contentK "你好".data]⟩ :
        LRU DedupKey ℚ)
      ⟨"chat".data, "你好".data, "u9".data, 100⟩).1 = true := by
    rw [is_duplicate_content_some 300
      ⟨1000, [(DedupKey.contentK "你好".data, 0)], [DedupKey.contentK "你好".data]⟩
      ⟨"chat".data, "你好".data, "u9".data, 100⟩ 0 rfl, if_pos]
    show (100 : ℚ) - 0 < 300
    norm_num
  refine ⟨hdup, C10_duplicate_writes_nothing.1 300 _ _ hdup, ?_⟩
  exact C10_duplicate_writes_nothing.2 300 _ _ 0 rfl (by show ¬ ((400 : ℚ) - 0 < 300); norm_num) rfl

/-- `C2`: for two events with equal content observed by a cache holding
neither fingerprint (and with room for both insertions): the first is not
a duplicate; a second event from a *different* user is a duplicate exactly
when its timestamp is within `dedupWindow` of the recorded one; a second
event from the *same* user is always a duplicate, even outside the
window. -/
theorem C2_dedup_window (window : ℚ) (c : LRU DedupKey ℚ) (ty1 ty2 content u1 u2 : List Char)
    (t1 t2 : ℚ)
    (hck : lookupA c.cache (DedupKey.contentK content) = none)
    (hu1 : lookupA c.cache (DedupKey.userK u1 content) = none)
    (hu2 : lookupA c.cache (DedupKey.userK u2 content) = none)
    (hroom : c.cache.length + 2 ≤ c.maxsize) :
    (is_duplicate window c ⟨ty1, content, u1, t1⟩).1 = false ∧
    (u1 ≠ u2 →
      ((is_duplicate window (is_duplicate window c ⟨ty1, content, u1, t1⟩).2
        ⟨ty2, content, u2, t2⟩).1 = true ↔ t2 - t1 < window)) ∧
    (u1 = u2 →
      (is_duplicate window (is_duplicate window c ⟨ty1, content, u1, t1⟩).2
        ⟨ty2, content, u1, t2⟩).1 = true) := by
  have h1 : is_duplicate window c ⟨ty1, content, u1, t1⟩
      = dedupUserStep c ⟨ty1, content, u1, t1⟩ :=
    is_duplicate_content_none window c _ hck
  have hrec := dedupUserStep_records c ⟨ty1, content, u1, t1⟩ hu1 hroom
  have hck2 : lookupA (is_duplicate window c ⟨ty1, content, u1, t1⟩).2.cache
      (DedupKey.contentK content) = some t1 := by
    rw [h1]
    exact hrec.2.1
  have hu1' : lookupA (is_duplicate window c ⟨ty1, content, u1, t1⟩).2.cache
      (DedupKey.userK u1 content) = some t1 := by
    rw [h1]
    exact hrec.2.2.1
  refine ⟨by rw [h1]; exact hrec.1, ?_, ?_⟩
  · intro hne12
    have hu2' : lookupA (is_duplicate window c ⟨ty1, content, u1, t1⟩).2.cache
        (DedupKey.userK u2 content) = none := by
      rw [h1]
      rw [hrec.2.2.2 (DedupKey.userK u2 content) (fun h => DedupKey.noConfusion h)
        (fun h => hne12 (by injection h with ha hb; exact ha.symm))]
      exact hu2
    rw [is_duplicate_content_some window _ _ t1 hck2]
    by_cases hwin : t2 - t1 < window
    · rw [if_pos (show (⟨ty2, content, u2, t2⟩ : Barrage).timestamp - t1 < window from hwin)]
      simp [hwin]
    · rw [if_neg (show ¬ ((⟨ty2, content, u2, t2⟩ : Barrage).timestamp - t1 < window)
        from hwin)]
      rw [dedupUserStep_fst_of_miss _ _ hu2']
      simp [hwin]
  · intro _
    rw [is_duplicate_content_some window _ _ t1 hck2]
    by_cases hwin : t2 - t1 < window
    · rw [if_pos (show (⟨ty2, content, u1, t2⟩ : Barrage).timestamp - t1 < window from hwin)]
    · rw [if_neg (show ¬ ((⟨ty2, content, u1, t2⟩ : Barrage).timestamp - t1 < window)
        from hwin)]
      rw [dedupUserStep_hit _ _ (by rw [hu1']; rfl)]

/-- Witness for `C2`: content `你好呀` first seen from user `a` at time 0
in an empty cache; from user `b` at time 100 it is duplicate iff
`100 − 0 < 300`; from user `a` at time 400 it is still duplicate. -/
theorem C2_witness :
    (is_duplicate 300 (LRU.empty DedupKey ℚ 1000)
      ⟨"chat".data, "你好呀".data, "a".data, 0⟩).1 = false ∧
    ((is_duplicate 300 (is_duplicate 300 (LRU.empty DedupKey ℚ 1000)
        ⟨"chat".data, "你好呀".data, "a".data, 0⟩).2
      ⟨"chat".data, "你好呀".data, "b".data, 100⟩).1 = true ↔ (100 : ℚ) - 0 < 300) ∧
    (is_duplicate 300 (is_duplicate 300 (LRU.empty DedupKey ℚ 1000)
        ⟨"chat".data, "你好呀".data, "a".data, 0⟩).2
      ⟨"chat".data, "你好呀".data, "a".data, 400⟩).1 = true := by
  have h := C2_dedup_window 300 (LRU.empty DedupKey ℚ 1000) "chat".data "chat".data
    "你好呀".data "a".data "b".data 0 100 rfl rfl rfl (by decide)
  have h' := C2_dedup_window 300 (LRU.empty DedupKey ℚ 1000) "chat".data "chat".data
    "你好呀".data "a".data "a".data 0 400 rfl rfl rfl (by decide)
  exact ⟨h.1, h.2.1 (by decide), h'.2.2 rfl⟩

/-! ## Funnel gate equations -/

theorem process_barrage_basic (p : Processor) (b : Barrage) (now : ℚ)
    (h : ¬ basic_filter b = true) :
    process_barrage p b now = (⟨ProcessAction.IGNORE, 0, "basic_filter".data, 0⟩, p) := by
  unfold process_barrage
  rw [if_pos h]

theorem process_barrage_dup (p : Processor) (b : Barrage) (now : ℚ) (c1 : LRU DedupKey ℚ)
    (hb : basic_filter b = true)
    (hd : is_duplicate p.dedup_window p.dedup_cache b = (true, c1)) :
    process_barrage p b now =
      (⟨ProcessAction.IGNORE, 0, "duplicate".data, 0⟩, ⟨c1, p.rate_limiter, p.dedup_window⟩) := by
  unfold process_barrage
  rw [if_neg (by simp [hb]), hd]

theorem process_barrage_forced (p : Processor) (b : Barrage) (now : ℚ) (c1 : LRU DedupKey ℚ)
    (hb : basic_filter b = true)
    (hd : is_duplicate p.dedup_window p.dedup_cache b = (false, c1))
    (hf : forcedKeywords.any (fun kw => containsSub kw b.content) = true) :
    process_barrage p b now =
      (⟨ProcessAction.PROCESS, 1, "high_value_keyword_match".data, 0⟩,
        ⟨c1, p.rate_limiter, p.dedup_window⟩) := by
  unfold process_barrage
  rw [if_neg (by simp [hb]), hd]
  dsimp only
  rw [if_pos hf]

theorem process_barrage_lowkw (p : Processor) (b : Barrage) (now : ℚ) (c1 : LRU DedupKey ℚ)
    (hb : basic_filter b = true)
    (hd : is_duplicate p.dedup_window p.dedup_cache b = (false, c1))
    (hf : ¬ forcedKeywords.any (fun kw => containsSub kw b.content) = true)
    (hk : calculate_score simpleHighValue b.content < keywordThreshold) :
    process_barrage p b now =
      (⟨ProcessAction.IGNORE, 0, "low_keyword_score".data, 0⟩,
        ⟨c1, p.rate_limiter, p.dedup_window⟩) := by
  unfold process_barrage
  rw [if_neg (by simp [hb]), hd]
  dsimp only
  rw [if_neg hf, if_pos hk]

theorem process_barrage_lowlocal (p : Processor) (b : Barrage) (now : ℚ) (c1 : LRU DedupKey ℚ)
    (hb : basic_filter b = true)
    (hd : is_duplicate p.dedup_window p.dedup_cache b = (false, c1))
    (hf : ¬ forcedKeywords.any (fun kw => containsSub kw b.content) = true)
    (hk : ¬ calculate_score simpleHighValue b.content < keywordThreshold)
    (hl : classify simpleHighValue b.content < localScoreThreshold) :
    process_barrage p b now =
      (⟨ProcessAction.IGNORE, 0, "low_local_score".data, 0⟩,
        ⟨c1, p.rate_limiter, p.dedup_window⟩) := by
  unfold process_barrage
  rw [if_neg (by simp [hb]), hd]
  dsimp only
  rw [if_neg hf, if_neg hk, if_pos hl]

theorem process_barrage_defer (p : Processor) (b : Barrage) (now : ℚ) (c1 : LRU DedupKey ℚ)
    (rl : TokenBucket)
    (hb : basic_filter b = true)
    (hd : is_duplicate p.dedup_window p.dedup_cache b = (false, c1))
    (hf : ¬ forcedKeywords.any (fun kw => containsSub kw b.content) = true)
    (hk : ¬ calculate_score simpleHighValue b.content < keywordThreshold)
    (hl : ¬ classify simpleHighValue b.content < localScoreThreshold)
    (hc : p.rate_limiter.consume now 1 = (false, rl)) :
    process_barrage p b now =
      (⟨ProcessAction.DEFER, 0, "rate_limit".data, 2⟩, ⟨c1, rl, p.dedup_window⟩) := by
  unfold process_barrage
  rw [if_neg (by simp [hb]), hd]
  dsimp only
  rw [if_neg hf, if_neg hk, if_neg hl, hc]

theorem process_barrage_route (p : Processor) (b : Barrage) (now : ℚ) (c1 : LRU DedupKey ℚ)
    (rl : TokenBucket)
    (hb : basic_filter b = true)
    (hd : is_duplicate p.dedup_window p.dedup_cache b = (false, c1))
    (hf : ¬ forcedKeywords.any (fun kw => containsSub kw b.content) = true)
    (hk : ¬ calculate_score simpleHighValue b.content < keywordThreshold)
    (hl : ¬ classify simpleHighValue b.content < localScoreThreshold)
    (hc : p.rate_limiter.consume now 1 = (true, rl)) :
    process_barrage p b now =
      (if 8/10 < classify simpleHighValue b.content then
        (⟨ProcessAction.PROCESS, classify simpleHighValue b.content, [], 0⟩,
          ⟨c1, rl, p.dedup_window⟩)
      else
        (⟨ProcessAction.BATCH, classify simpleHighValue b.content, [], 0⟩,
          ⟨c1, rl, p.dedup_window⟩)) := by
  unfold process_barrage
  rw [if_neg (by simp [hb]), hd]
  dsimp only
  rw [if_neg hf, if_neg hk, if_neg hl, hc]

/-- `C4`: an event that passes the basic filter, is not a duplicate, and
contains a forced always-relevant keyword is immediately answered
`Process{confidence 1.0}` — never any `Ignore`, `Defer` or `Batch` — and
the token bucket is completely untouched. -/
theorem C4_forced_override (p : Processor) (b : Barrage) (now : ℚ)
    (hb : basic_filter b = true)
    (hd : (is_duplicate p.dedup_window p.dedup_cache b).1 = false)
    (hf : forcedKeywords.any (fun kw => containsSub kw b.content) = true) :
    (process_barrage p b now).1 =
      ⟨ProcessAction.PROCESS, 1, "high_value_keyword_match".data, 0⟩ ∧
    (process_barrage p b now).2.rate_limiter = p.rate_limiter := by
  have hd' : is_duplicate p.dedup_window p.dedup_cache b
      = (false, (is_duplicate p.dedup_window p.dedup_cache b).2) := by
    rw [← hd]
  have h := process_barrage_forced p b now (is_duplicate p.dedup_window p.dedup_cache b).2
    hb hd' hf
  rw [h]
  exact ⟨rfl, rfl⟩

/-- Witness for `C4`: `我想预约针灸` (contains the forced keyword `预约`)
from a fresh pipeline state. -/
theorem C4_witness :
    (process_barrage ⟨LRU.empty DedupKey ℚ 1000, ⟨50, 50, 5, 0⟩, 300⟩
      ⟨"chat".data, "我想预约针灸".data, "u1".data, 0⟩ 0).1 =
      ⟨ProcessAction.PROCESS, 1, "high_value_keyword_match".data, 0⟩ ∧
    (process_barrage ⟨LRU.empty DedupKey ℚ 1000, ⟨50, 50, 5, 0⟩, 300⟩
      ⟨"chat".data, "我想预约针灸".data, "u1".data, 0⟩ 0).2.rate_limiter = ⟨50, 50, 5, 0⟩ :=
  C4_forced_override ⟨LRU.empty DedupKey ℚ 1000, ⟨50, 50, 5, 0⟩, 300⟩
    ⟨"chat".data, "我想预约针灸".data, "u1".data, 0⟩ 0 (by decide) (by decide) (by decide)

/-- `C6`: any `Ignore` outcome — basic filter, duplicate, low keyword
score, or low local score — is produced before the rate limiter is
consulted, so the token bucket's state is completely unchanged. -/
theorem C6_ignore_leaves_bucket (p : Processor) (b : Barrage) (now : ℚ)
    (h : (process_barrage p b now).1.action = ProcessAction.IGNORE) :
    (process_barrage p b now).2.rate_limiter = p.rate_limiter := by
  by_cases hb : basic_filter b = true
  · rcases hd : is_duplicate p.dedup_window p.dedup_cache b with ⟨d, c1⟩
    cases d
    · by_cases hf : forcedKeywords.any (fun kw => containsSub kw b.content) = true
      · rw [process_barrage_forced p b now c1 hb hd hf] at h
        exact absurd h (by simp)
      · by_cases hk : calculate_score simpleHighValue b.content < keywordThreshold
        · rw [process_barrage_lowkw p b now c1 hb hd hf hk]
        · by_cases hl : classify simpleHighValue b.content < localScoreThreshold
          · rw [process_barrage_lowlocal p b now c1 hb hd hf hk hl]
          · rcases hc : p.rate_limiter.consume now 1 with ⟨ok, rl⟩
            cases ok
            · rw [process_barrage_defer p b now c1 rl hb hd hf hk hl hc] at h
              exact absurd h (by simp)
            · rw [process_barrage_route p b now c1 rl hb hd hf hk hl hc] at h
              by_cases hr : 8/10 < classify simpleHighValue b.content
              · rw [if_pos hr] at h
                exact absurd h (by simp)
              · rw [if_neg hr] at h
                exact absurd h (by simp)
    · rw [process_barrage_dup p b now c1 hb hd]
  · rw [process_barrage_basic p b now hb]

/-- Witness for `C6`: a `gift`-type event is ignored by the basic filter
and the bucket field of the state is untouched. -/
theorem C6_witness :
    (process_barrage ⟨LRU.empty DedupKey ℚ 1000, ⟨50, 50, 5, 0⟩, 300⟩
      ⟨"gift".data, "谢谢".data, "u1".data, 0⟩ 0).2.rate_limiter = ⟨50, 50, 5, 0⟩ :=
  C6_ignore_leaves_bucket ⟨LRU.empty DedupKey ℚ 1000, ⟨50, 50, 5, 0⟩, 300⟩
    ⟨"gift".data, "谢谢".data, "u1".data, 0⟩ 0 (by decide)

/-! ## Basic-filter lemmas (C8) -/

theorem strip_eq_nil_iff (l : List Char) :
    strip l = [] ↔ ∀ ch ∈ l, ch.isWhitespace = true := by
  unfold strip
  rw [List.reverse_eq_nil_iff, List.dropWhile_eq_nil_iff]
  constructor
  · intro h ch hch
    rcases List.mem_append.1 ((List.takeWhile_append_dropWhile (p := Char.isWhitespace)
        (l := l)) ▸ hch) with hmem | hmem
    · exact List.mem_takeWhile_imp hmem
    · exact h ch (by simpa using hmem)
  · intro h ch hch
    exact h ch (List.dropWhile_sublist _ |>.subset (by simpa using hch))

theorem is_pure_emoji_iff (s : List Char) :
    is_pure_emoji s = true ↔ ∀ ch ∈ s, isEmojiChar ch = true ∨ ch.isWhitespace = true := by
  unfold is_pure_emoji
  rw [List.isEmpty_iff, strip_eq_nil_iff]
  constructor
  · intro h ch hch
    by_cases he : isEmojiChar ch = true
    · exact Or.inl he
    · exact Or.inr (h ch (List.mem_filter.2 ⟨hch, by simp [he]⟩))
  · intro h ch hch
    rcases List.mem_filter.1 hch with ⟨hmem, hne⟩
    rcases h ch hmem with he | hw
    · rw [he] at hne
      simp at hne
    · exact hw

/-- Counterexample for `C8`: the event `😀 😀` has a textual kind, trimmed
length 3 within `[2,500]`, and contains a non-emoji character (the space),
yet the basic filter rejects it — so the gate does not pass every event
with a textual kind, in-range trimmed length and at least one non-emoji
character. -/
theorem C8_counterexample :
    (⟨"chat".data, "😀 😀".data, "u".data, 0⟩ : Barrage).type = "chat".data ∧
    (strip (⟨"chat".data, "😀 😀".data, "u".data, 0⟩ : Barrage).content).length = 3 ∧
    (∃ ch ∈ strip (⟨"chat".data, "😀 😀".data, "u".data, 0⟩ : Barrage).content,
      isEmojiChar ch = false) ∧
    basic_filter ⟨"chat".data, "😀 😀".data, "u".data, 0⟩ = false := by
  refine ⟨rfl, by decide, ⟨' ', by decide, by decide⟩, by decide⟩

/-- `C8` (amended): the basic filter passes an event exactly when its kind
is `chat` or `emoji_chat`, its trimmed content length is in `[2, 500]`,
and the trimmed content has at least one character that is neither an
emoji glyph nor whitespace (content made up solely of emoji and
whitespace is rejected as pure emoji). -/
theorem C8_basic_filter_characterisation (b : Barrage) :
    basic_filter b = true ↔
      ((b.type = "chat".data ∨ b.type = "emoji_chat".data) ∧
       2 ≤ (strip b.content).length ∧ (strip b.content).length ≤ 500 ∧
       ∃ ch ∈ strip b.content, isEmojiChar ch = false ∧ ch.isWhitespace = false) := by
  unfold basic_filter
  by_cases hty : b.type ≠ "chat".data ∧ b.type ≠ "emoji_chat".data
  · rw [if_pos hty]
    simp only [Bool.false_eq_true, false_iff]
    intro hcon
    rcases hcon with ⟨hor, _⟩
    rcases hor with h | h
    · exact hty.1 h
    · exact hty.2 h
  · rw [if_neg hty]
    have hty' : b.type = "chat".data ∨ b.type = "emoji_chat".data := by
      by_cases h1 : b.type = "chat".data
      · exact Or.inl h1
      · by_cases h2 : b.type = "emoji_chat".data
        · exact Or.inr h2
        · exact absurd ⟨h1, h2⟩ hty
    by_cases hlen : (strip b.content).isEmpty = true ∨ (strip b.content).length < 2 ∨
        500 < (strip b.content).length
    · rw [if_pos hlen]
      simp only [Bool.false_eq_true, false_iff]
      intro hcon
      rcases hcon with ⟨_, h2, h500, _⟩
      rcases hlen with he | hl | hg
      · rw [List.isEmpty_iff] at he
        rw [he] at h2
        simp at h2
      · omega
      · omega
    · rw [if_neg hlen]
      push_neg at hlen
      by_cases hemo : is_pure_emoji (strip b.content) = true
      · rw [if_pos hemo]
        simp only [Bool.false_eq_true, false_iff]
        intro hcon
        rcases hcon with ⟨_, _, _, ch, hch, hne, hnw⟩
        rcases (is_pure_emoji_iff (strip b.content)).1 hemo ch hch with he | hw
        · rw [he] at hne
          simp at hne
        · rw [hw] at hnw
          simp at hnw
      · rw [if_neg hemo]
        simp only [true_iff]
        refine ⟨hty', by omega, by omega, ?_⟩
        have hnot : ¬ ∀ ch ∈ strip b.content,
            isEmojiChar ch = true ∨ ch.isWhitespace = true := by
          intro hall
          exact hemo ((is_pure_emoji_iff (strip b.content)).2 hall)
        push_neg at hnot
        rcases hnot with ⟨ch, hch, hno⟩
        refine ⟨ch, hch, ?_, ?_⟩
        · cases hx : isEmojiChar ch
          · rfl
          · exact absurd hx hno.1
        · cases hx : ch.isWhitespace
          · rfl
          · exact absurd hx hno.2

/-! ## Batch-selection lemmas (C5) -/

/-- Full characterisation of the `best_result` selection fold: either no
update happens (every valued result is bounded by the incoming best
score), or the fold returns the first valued result of maximal confidence
strictly above the incoming best score. -/
theorem bestFold_spec (rs : List (Option AIJudgeResult)) (acc : Option AIJudgeResult × ℚ) :
    (rs.foldl bestStep acc = acc ∧
      ∀ a : AIJudgeResult, some a ∈ rs → a.has_value = true → a.confidence ≤ acc.2) ∨
    (∃ a l r, rs = l ++ some a :: r ∧ rs.foldl bestStep acc = (some a, a.confidence) ∧
      a.has_value = true ∧ acc.2 < a.confidence ∧
      (∀ x : AIJudgeResult, some x ∈ l → x.has_value = true → x.confidence < a.confidence) ∧
      (∀ x : AIJudgeResult, some x ∈ r → x.has_value = true → x.confidence ≤ a.confidence)) := by
  induction rs generalizing acc with
  | nil =>
      left
      exact ⟨rfl, by simp⟩
  | cons r0 rest ih =>
      rw [List.foldl_cons]
      by_cases hup : ∃ a0 : AIJudgeResult, r0 = some a0 ∧ a0.has_value = true ∧
          acc.2 < a0.confidence
      · rcases hup with ⟨a0, hr0, hv0, hlt0⟩
        have hstep : bestStep acc r0 = (some a0, a0.confidence) := by
          rw [hr0, bestStep]
          rw [if_pos (by rw [hv0]; simpa using hlt0)]
        rw [hstep]
        rcases ih (some a0, a0.confidence) with ⟨heq, hbd⟩ | ⟨a, l, r, hdec, hfold, hv, hgt, hearl, hlate⟩
        · right
          refine ⟨a0, [], rest, by rw [hr0, List.nil_append], by rw [heq], hv0, hlt0, by simp, ?_⟩
          intro x hx hvx
          exact hbd x hx hvx
        · right
          refine ⟨a, r0 :: l, r, by rw [hdec, List.cons_append], hfold, hv, lt_trans hlt0 hgt, ?_, hlate⟩
          intro x hx hvx
          rcases List.mem_cons.1 hx with hx0 | hxl
          · rw [hr0] at hx0
            have hxa : x = a0 := by
              injection hx0
            rw [hxa]
            exact hgt
          · exact hearl x hxl hvx
      · have hstep : bestStep acc r0 = acc := by
          rcases hr0 : r0 with _ | a0
          · rfl
          · rw [bestStep]
            rw [if_neg]
            intro hcond
            rw [Bool.and_eq_true] at hcond
            exact hup ⟨a0, hr0, hcond.1, by simpa using hcond.2⟩
        rw [hstep]
        rcases ih acc with ⟨heq, hbd⟩ | ⟨a, l, r, hdec, hfold, hv, hgt, hearl, hlate⟩
        · left
          refine ⟨heq, ?_⟩
          intro x hx hvx
          rcases List.mem_cons.1 hx with hx0 | hxl
          · by_contra hgt
            push_neg at hgt
            exact hup ⟨x, hx0.symm, hvx, hgt⟩
          · exact hbd x hxl hvx
        · right
          refine ⟨a, r0 :: l, r, by rw [hdec, List.cons_append], hfold, hv, hgt, ?_, hlate⟩
          intro x hx hvx
          rcases List.mem_cons.1 hx with hx0 | hxl
          · by_contra hge
            push_neg at hge
            have hlt : acc.2 < x.confidence := lt_of_lt_of_le hgt hge
            exact hup ⟨x, hx0.symm, hvx, hlt⟩
          · exact hearl x hxl hvx

/-- Counterexample for `C5`: with `batchSize = 5`, the fifth add flushes,
but the oracle result of maximal confidence (0.9) is marked
`has_value = false` and is skipped; the selection is the 0.5-confidence
result, which is not of maximal confidence among the batch. -/
theorem C5_counterexample :
    (add_to_batch
        ⟨5, 10,
          [⟨"chat".data, "a1".data, "u".data, 0⟩, ⟨"chat".data, "a2".data, "u".data, 0⟩,
           ⟨"chat".data, "a3".data, "u".data, 0⟩, ⟨"chat".data, "a4".data, "u".data, 0⟩], 0⟩
        ⟨"chat".data, "a5".data, "u".data, 0⟩
        (fun _ => [some ⟨false, "a1".data, 9/10⟩, some ⟨true, "a2".data, 1/2⟩]) 1).1
      = some ⟨true, "a2".data, 1/2⟩ ∧
    ((⟨false, "a1".data, 9/10⟩ : AIJudgeResult).confidence
      > (⟨true, "a2".data, 1/2⟩ : AIJudgeResult).confidence) := by
  constructor
  · rw [add_to_batch, if_pos (by left; norm_num)]
    rw [process_batch, if_neg (by simp)]
    have h1 : bestStep ((none : Option AIJudgeResult), (0 : ℚ))
        (some ⟨false, "a1".data, 9/10⟩) = (none, 0) := by
      rw [bestStep]
      rw [if_neg (by simp)]
    have h2 : bestStep ((none : Option AIJudgeResult), (0 : ℚ))
        (some ⟨true, "a2".data, 1/2⟩) = (some ⟨true, "a2".data, 1/2⟩, 1/2) := by
      rw [bestStep]
      rw [if_pos (by norm_num)]
    show ((bestOf [some ⟨false, "a1".data, 9/10⟩, some ⟨true, "a2".data, 1/2⟩]).1, _).1
      = some (⟨true, "a2".data, 1/2⟩ : AIJudgeResult)
    rw [bestOf, List.foldl_cons, h1, List.foldl_cons, h2, List.foldl_nil]
  · show (9 : ℚ)/10 > 1/2
    norm_num

/-- `C5` (amended): when an add reaches `batchSize` (or the elapsed time
strictly exceeds `maxWait`) exactly one flush occurs: the window is
emptied and its start reset to now, and the selection is the earliest
oracle result of maximal confidence among those marked has-value, provided
that maximum is strictly positive; when no valued result has positive
confidence nothing is selected (though the window is still cleared).
Without the trigger the event is only buffered. -/
theorem C5_batch_flush (st : BatchState) (b : Barrage)
    (judge : List Barrage → List (Option AIJudgeResult)) (now : ℚ) :
    (¬ (st.batch_size ≤ st.current_batch.length + 1 ∨
        st.max_wait_time < now - st.last_process_time) →
      add_to_batch st b judge now =
        (none, ⟨st.batch_size, st.max_wait_time, st.current_batch ++ [b],
          st.last_process_time⟩)) ∧
    ((st.batch_size ≤ st.current_batch.length + 1 ∨
        st.max_wait_time < now - st.last_process_time) →
      (add_to_batch st b judge now).2.current_batch = [] ∧
      (add_to_batch st b judge now).2.last_process_time = now ∧
      ((add_to_batch st b judge now).1 = none →
        ∀ a : AIJudgeResult, some a ∈ judge (st.current_batch ++ [b]) →
          a.has_value = true → a.confidence ≤ 0) ∧
      (∀ a : AIJudgeResult, (add_to_batch st b judge now).1 = some a →
        a.has_value = true ∧ 0 < a.confidence ∧
        ∃ l r, judge (st.current_batch ++ [b]) = l ++ some a :: r ∧
          (∀ x : AIJudgeResult, some x ∈ l → x.has_value = true →
            x.confidence < a.confidence) ∧
          (∀ x : AIJudgeResult, some x ∈ r → x.has_value = true →
            x.confidence ≤ a.confidence))) := by
  constructor
  · intro hno
    rw [add_to_batch, if_neg (by simpa using hno)]
  · intro hyes
    rw [add_to_batch, if_pos (by simpa using hyes)]
    rw [process_batch, if_neg (by simp)]
    rcases bestFold_spec (judge (st.current_batch ++ [b])) (none, 0) with
      ⟨heq, hbd⟩ | ⟨a, l, r, hdec, hfold, hv, hgt, hearl, hlate⟩
    · refine ⟨rfl, rfl, ?_, ?_⟩
      · intro _ a ha hva
        exact hbd a ha hva
      · intro a ha
        rw [bestOf] at ha
        rw [heq] at ha
        simp at ha
    · refine ⟨rfl, rfl, ?_, ?_⟩
      · intro hnone
        rw [bestOf] at hnone
        rw [hfold] at hnone
        simp at hnone
      · intro x hx
        rw [bestOf] at hx
        rw [hfold] at hx
        simp only at hx
        have hxa : a = x := by
          injection hx
        rw [← hxa]
        exact ⟨hv, hgt, l, r, hdec, hearl, hlate⟩

/-- Witness for `C5` (amended): a triggered flush empties the window and
resets its start to the current time. -/
theorem C5_witness :
    (add_to_batch ⟨2, 10, [⟨"chat".data, "b1".data, "u".data, 0⟩], 0⟩
      ⟨"chat".data, "b2".data, "u".data, 0⟩
      (fun _ => [some ⟨true, "b1".data, 9/10⟩]) 1).2.current_batch = [] ∧
    (add_to_batch ⟨2, 10, [⟨"chat".data, "b1".data, "u".data, 0⟩], 0⟩
      ⟨"chat".data, "b2".data, "u".data, 0⟩
      (fun _ => [some ⟨true, "b1".data, 9/10⟩]) 1).2.last_process_time = 1 := by
  have h := (C5_batch_flush ⟨2, 10, [⟨"chat".data, "b1".data, "u".data, 0⟩], 0⟩
    ⟨"chat".data, "b2".data, "u".data, 0⟩
    (fun _ => [some ⟨true, "b1".data, 9/10⟩]) 1).2 (Or.inl (by decide))
  exact ⟨h.1, h.2.1⟩

/-! ## Defer-path lemmas (C9) -/

theorem is_duplicate_false_records (window : ℚ) (c : LRU DedupKey ℚ) (b : Barrage)
    (hroom : c.cache.length + 2 ≤ c.maxsize)
    (hfalse : (is_duplicate window c b).1 = false) :
    lookupA (is_duplicate window c b).2.cache (DedupKey.contentK b.content)
      = some b.timestamp ∧
    lookupA (is_duplicate window c b).2.cache (DedupKey.userK b.user_id b.content)
      = some b.timestamp ∧
    (∀ k, k ≠ DedupKey.contentK b.content → k ≠ DedupKey.userK b.user_id b.content →
      lookupA (is_duplicate window c b).2.cache k = lookupA c.cache k) := by
  rcases hck : lookupA c.cache (DedupKey.contentK b.content) with _ | t0
  · rw [is_duplicate_content_none window c b hck] at hfalse ⊢
    by_cases huk : (lookupA c.cache (DedupKey.userK b.user_id b.content)).isSome = true
    · rw [dedupUserStep_hit c b huk] at hfalse
      simp at hfalse
    · have huk' : lookupA c.cache (DedupKey.userK b.user_id b.content) = none := by
        cases hx : lookupA c.cache (DedupKey.userK b.user_id b.content)
        · rfl
        · rw [hx] at huk
          simp at huk
      have hrec := dedupUserStep_records c b huk' hroom
      exact ⟨hrec.2.1, hrec.2.2.1, hrec.2.2.2⟩
  · rw [is_duplicate_content_some window c b t0 hck] at hfalse ⊢
    by_cases hwin : b.timestamp - t0 < window
    · rw [if_pos hwin] at hfalse
      simp at hfalse
    · rw [if_neg hwin] at hfalse ⊢
      by_cases huk : (lookupA c.cache (DedupKey.userK b.user_id b.content)).isSome = true
      · rw [dedupUserStep_hit ⟨c.maxsize, c.cache,
          (c.access_order.erase (DedupKey.contentK b.content)) ++
            [DedupKey.contentK b.content]⟩ b huk] at hfalse
        simp at hfalse
      · have huk' : lookupA c.cache (DedupKey.userK b.user_id b.content) = none := by
          cases hx : lookupA c.cache (DedupKey.userK b.user_id b.content)
          · rfl
          · rw [hx] at huk
            simp at huk
        have hrec := dedupUserStep_records ⟨c.maxsize, c.cache,
          (c.access_order.erase (DedupKey.contentK b.content)) ++
            [DedupKey.contentK b.content]⟩ b huk' hroom
        exact ⟨hrec.2.1, hrec.2.2.1, hrec.2.2.2⟩

theorem consume_false_refill (b : TokenBucket) (now n : ℚ) (rl : TokenBucket)
    (h : b.consume now n = (false, rl)) : rl = b.refill now := by
  rw [TokenBucket.consume_def] at h
  by_cases hcond : n ≤ (b.refill now).tokens
  · rw [if_pos hcond] at h
    exact absurd (congrArg Prod.fst h) (by simp)
  · rw [if_neg hcond] at h
    exact (congrArg Prod.snd h).symm

/-- `C9` (amended): when the funnel answers `Defer{rate_limit}`, the
duplicate check has already recorded the event's content and user
fingerprints in the dedup cache at the event's timestamp (touching no
other binding, barring eviction), and the token bucket has only been
refilled, not consumed; the event itself is not stored for any retry. -/
theorem C9_defer_already_recorded (p : Processor) (b : Barrage) (now : ℚ)
    (hroom : p.dedup_cache.cache.length + 2 ≤ p.dedup_cache.maxsize)
    (h : (process_barrage p b now).1.action = ProcessAction.DEFER) :
    lookupA (process_barrage p b now).2.dedup_cache.cache (DedupKey.contentK b.content)
      = some b.timestamp ∧
    lookupA (process_barrage p b now).2.dedup_cache.cache
      (DedupKey.userK b.user_id b.content) = some b.timestamp ∧
    (∀ k, k ≠ DedupKey.contentK b.content → k ≠ DedupKey.userK b.user_id b.content →
      lookupA (process_barrage p b now).2.dedup_cache.cache k
        = lookupA p.dedup_cache.cache k) ∧
    (process_barrage p b now).2.rate_limiter = p.rate_limiter.refill now := by
  by_cases hb : basic_filter b = true
  · rcases hd : is_duplicate p.dedup_window p.dedup_cache b with ⟨d, c1⟩
    cases d
    · by_cases hf : forcedKeywords.any (fun kw => containsSub kw b.content) = true
      · rw [process_barrage_forced p b now c1 hb hd hf] at h
        exact absurd h (by simp)
      · by_cases hk : calculate_score simpleHighValue b.content < keywordThreshold
        · rw [process_barrage_lowkw p b now c1 hb hd hf hk] at h
          exact absurd h (by simp)
        · by_cases hl : classify simpleHighValue b.content < localScoreThreshold
          · rw [process_barrage_lowlocal p b now c1 hb hd hf hk hl] at h
            exact absurd h (by simp)
          · rcases hc : p.rate_limiter.consume now 1 with ⟨ok, rl⟩
            cases ok
            · rw [process_barrage_defer p b now c1 rl hb hd hf hk hl hc]
              have hfalse : (is_duplicate p.dedup_window p.dedup_cache b).1 = false := by
                rw [hd]
              have hrec := is_duplicate_false_records p.dedup_window p.dedup_cache b
                hroom hfalse
              rw [hd] at hrec
              exact ⟨hrec.1, hrec.2.1, hrec.2.2,
                consume_false_refill p.rate_limiter now 1 rl hc⟩
            · rw [process_barrage_route p b now c1 rl hb hd hf hk hl hc] at h
              by_cases hr : 8/10 < classify simpleHighValue b.content
              · rw [if_pos hr] at h
                exact absurd h (by simp)
              · rw [if_neg hr] at h
                exact absurd h (by simp)
    · rw [process_barrage_dup p b now c1 hb hd] at h
      exact absurd h (by simp)
  · rw [process_barrage_basic p b now hb] at h
    exact absurd h (by simp)

/-- Concrete run of the funnel ending in `Defer{rate_limit}`: content
`我能订位吗` (keyword score 0.95, local score 0.755, no forced keyword)
against an empty token bucket. -/
theorem defer_run_action :
    (process_barrage ⟨LRU.empty DedupKey ℚ 1000, ⟨50, 0, 5, 0⟩, 300⟩
      ⟨"chat".data, "我能订位吗".data, "u1".data, 0⟩ 0).1.action
      = ProcessAction.DEFER := by
  have hm1 : simpleHighValue.map (fun kv => containsSub kv.1 "我能订位吗".data)
      = [false, true, false, false, false, false, false, false, false, false, false, false,
         false, false, false, false, false, false, false, false, false, false, false, false,
         false, false, false, false, false, false, false, false, false, false, false, false,
         false, false, false, false, false, false] := by decide
  have hm2 : negativeKeywords.map (fun kv => containsSub kv.1 "我能订位吗".data)
      = [false, false, false, false, false, false, false, false, false, false, false, false,
         false, false, false] := by decide
  have hkw1 : keywordTotal simpleHighValue "我能订位吗".data = 9/10 := by
    rw [keywordTotal_mask, hm1]
    norm_num [simpleHighValue, maskSum]
  have hkw2 : keywordTotal negativeKeywords "我能订位吗".data = 0 := by
    rw [keywordTotal_mask, hm2]
    norm_num [negativeKeywords, maskSum]
  have hstrip : strip "我能订位吗".data = "我能订位吗".data := by decide
  have hlower : lower "我能订位吗".data = "我能订位吗".data := by decide
  have hks : calculate_score simpleHighValue "我能订位吗".data = 19/20 := by
    simp only [calculate_score, hstrip, hlower]
    rw [if_neg (by decide), if_neg (by decide), hkw1, hkw2,
      (by decide : ("我能订位吗".data).length = 5)]
    norm_num
  have hqp : questionPats "我能订位吗".data
      = [false, false, false, false, false, false, false, true, false] := by decide
  have hqs : question_score "我能订位吗".data = 3/10 := by
    rw [question_score, hqp]
    norm_num [List.foldl]
  have hls : classify simpleHighValue "我能订位吗".data = 151/200 := by
    rw [classify, if_neg (by decide), hks, hqs]
    norm_num
  have hrefill : (⟨50, 0, 5, 0⟩ : TokenBucket).refill 0 = ⟨50, 0, 5, 0⟩ := by
    rw [TokenBucket.refill]
    norm_num
  have hc : (⟨50, 0, 5, 0⟩ : TokenBucket).consume 0 1 = (false, ⟨50, 0, 5, 0⟩) := by
    rw [TokenBucket.consume_def, hrefill, if_neg (by norm_num)]
  have hX : is_duplicate 300 (LRU.empty DedupKey ℚ 1000)
      ⟨"chat".data, "我能订位吗".data, "u1".data, 0⟩
      = dedupUserStep (LRU.empty DedupKey ℚ 1000)
        ⟨"chat".data, "我能订位吗".data, "u1".data, 0⟩ :=
    is_duplicate_content_none 300 _ _ rfl
  have hfst : (dedupUserStep (LRU.empty DedupKey ℚ 1000)
      ⟨"chat".data, "我能订位吗".data, "u1".data, 0⟩).1 = false :=
    dedupUserStep_fst_of_miss _ _ rfl
  have hd : is_duplicate 300 (LRU.empty DedupKey ℚ 1000)
      ⟨"chat".data, "我能订位吗".data, "u1".data, 0⟩
      = (false, (dedupUserStep (LRU.empty DedupKey ℚ 1000)
          ⟨"chat".data, "我能订位吗".data, "u1".data, 0⟩).2) := by
    rw [hX, ← hfst]
  rw [process_barrage_defer ⟨LRU.empty DedupKey ℚ 1000, ⟨50, 0, 5, 0⟩, 300⟩
    ⟨"chat".data, "我能订位吗".data, "u1".data, 0⟩ 0 _ ⟨50, 0, 5, 0⟩
    (by decide) hd (by decide)
    (by rw [hks]; norm_num [keywordThreshold])
    (by rw [hls]; norm_num [localScoreThreshold]) hc]

/-- Counterexample for `C9`: a `Defer{rate_limit}` outcome for which the
dedup cache — empty before the call — afterwards holds the event's
content fingerprint, so pipeline state is *not* unchanged and the
pipeline *does* hold data about the deferred event. -/
theorem C9_counterexample :
    (process_barrage ⟨LRU.empty DedupKey ℚ 1000, ⟨50, 0, 5, 0⟩, 300⟩
      ⟨"chat".data, "我能订位吗".data, "u1".data, 0⟩ 0).1.action
      = ProcessAction.DEFER ∧
    lookupA (LRU.empty DedupKey ℚ 1000).cache (DedupKey.contentK "我能订位吗".data)
      = none ∧
    lookupA (process_barrage ⟨LRU.empty DedupKey ℚ 1000, ⟨50, 0, 5, 0⟩, 300⟩
        ⟨"chat".data, "我能订位吗".data, "u1".data, 0⟩ 0).2.dedup_cache.cache
      (DedupKey.contentK "我能订位吗".data) = some 0 := by
  refine ⟨defer_run_action, rfl, ?_⟩
  exact (C9_defer_already_recorded ⟨LRU.empty DedupKey ℚ 1000, ⟨50, 0, 5, 0⟩, 300⟩
    ⟨"chat".data, "我能订位吗".data, "u1".data, 0⟩ 0 (by decide) defer_run_action).1

/-- Witness for `C9` (amended): the same concrete `Defer` run, with the
token bucket only refilled. -/
theorem C9_witness :
    lookupA (process_barrage ⟨LRU.empty DedupKey ℚ 1000, ⟨50, 0, 5, 0⟩, 300⟩
        ⟨"chat".data, "我能订位吗".data, "u1".data, 0⟩ 0).2.dedup_cache.cache
      (DedupKey.userK "u1".data "我能订位吗".data) = some 0 ∧
    (process_barrage ⟨LRU.empty DedupKey ℚ 1000, ⟨50, 0, 5, 0⟩, 300⟩
      ⟨"chat".data, "我能订位吗".data, "u1".data, 0⟩ 0).2.rate_limiter
      = (⟨50, 0, 5, 0⟩ : TokenBucket).refill 0 := by
  have h := C9_defer_already_recorded ⟨LRU.empty DedupKey ℚ 1000, ⟨50, 0, 5, 0⟩, 300⟩
    ⟨"chat".data, "我能订位吗".data, "u1".data, 0⟩ 0 (by decide) defer_run_action
  exact ⟨h.2.1, h.2.2.2⟩

/-! ## LRU invariants (C7) -/

theorem eraseKey_of_mem_length {K V : Type} [DecidableEq K] (l : List (K × V)) (k : K)
    (hnd : (l.map Prod.fst).Nodup) (h : (lookupA l k).isSome = true) :
    (eraseKey l k).length + 1 = l.length := by
  induction l with
  | nil => simp [lookupA] at h
  | cons p t ih =>
      obtain ⟨k', v⟩ := p
      rw [List.map_cons, List.nodup_cons] at hnd
      by_cases hk : k' = k
      · subst hk
        have hnone : lookupA t k' = none := by
          rw [lookupA_eq_none_iff_not_mem]
          exact hnd.1
        rw [eraseKey, if_pos rfl, eraseKey_of_not_mem t k' hnone]
        simp
      · rw [lookupA, if_neg hk] at h
        rw [eraseKey, if_neg hk]
        simp only [List.length_cons]
        rw [ih hnd.2 h]

theorem setA_keys {K V : Type} [DecidableEq K] (l : List (K × V)) (k : K) (v : V) :
    (setA l k v).map Prod.fst = (eraseKey l k).map Prod.fst ++ [k] := by
  rw [setA, List.map_append]
  rfl

theorem eraseKey_sublist {K V : Type} [DecidableEq K] (l : List (K × V)) (k : K) :
    List.Sublist (eraseKey l k) l := by
  induction l with
  | nil => simp [eraseKey]
  | cons p t ih =>
      obtain ⟨k', v⟩ := p
      by_cases hk : k' = k
      · rw [eraseKey, if_pos hk]
        exact List.Sublist.cons _ ih
      · rw [eraseKey, if_neg hk]
        exact List.Sublist.cons₂ _ ih

theorem eraseKey_keys_nodup {K V : Type} [DecidableEq K] (l : List (K × V)) (k : K)
    (hnd : (l.map Prod.fst).Nodup) : ((eraseKey l k).map Prod.fst).Nodup :=
  hnd.sublist (List.Sublist.map Prod.fst (eraseKey_sublist l k))

theorem setA_keys_nodup {K V : Type} [DecidableEq K] (l : List (K × V)) (k : K) (v : V)
    (hnd : (l.map Prod.fst).Nodup) : ((setA l k v).map Prod.fst).Nodup := by
  rw [setA_keys]
  rw [List.nodup_append]
  refine ⟨eraseKey_keys_nodup l k hnd, List.nodup_singleton k, ?_⟩
  intro a ha hb
  rw [List.mem_singleton] at hb
  subst hb
  rw [← lookupA_isSome_iff_mem] at ha
  rw [lookupA_eraseKey_self] at ha
  simp at ha

theorem lookupA_setA_isSome_iff {K V : Type} [DecidableEq K] (l : List (K × V)) (k k' : K)
    (v : V) : (lookupA (setA l k v) k').isSome = true ↔
      ((lookupA l k').isSome = true ∨ k' = k) := by
  by_cases h : k' = k
  · subst h
    rw [lookupA_setA_self]
    simp
  · rw [lookupA_setA_ne l k k' v h]
    simp [h]

/-- `get` preserves well-formedness. -/
theorem WF.get_pres {K V : Type} [DecidableEq K] (c : LRU K V) (k : K) (h : WF c) :
    WF (c.get k).2 := by
  obtain ⟨hnk, hno, hmem, hlen⟩ := h
  rcases hl : lookupA c.cache k with _ | v
  · rw [LRU.get_none c k hl]
    exact ⟨hnk, hno, hmem, hlen⟩
  · rw [LRU.get_some c k v hl]
    have hkmem : k ∈ c.access_order := (hmem k).2 (by rw [hl]; rfl)
    refine ⟨hnk, ?_, ?_, ?_⟩
    · rw [List.nodup_append]
      exact ⟨hno.erase k, List.nodup_singleton k, by
        intro a ha hb
        rw [List.mem_singleton] at hb
        subst hb
        exact hno.not_mem_erase ha⟩
    · intro j
      by_cases hj : j = k
      · subst hj
        rw [List.mem_append]
        simp only [List.mem_singleton, or_true, true_iff]
        rw [hl]
        rfl
      · rw [List.mem_append]
        simp only [List.mem_singleton, hj, or_false]
        rw [List.mem_erase_of_ne hj]
        exact hmem j
    · rw [List.length_append, List.length_erase_of_mem hkmem]
      have hpos : 0 < c.access_order.length := List.length_pos.2 (by
        intro hnil
        rw [hnil] at hkmem
        simp at hkmem)
      simp only [List.length_cons, List.length_nil]
      omega

/-- `put` preserves well-formedness. -/
theorem WF.put_pres {K V : Type} [DecidableEq K] (c : LRU K V) (k : K) (v : V) (h : WF c) :
    WF (c.put k v) := by
  obtain ⟨hnk, hno, hmem, hlen⟩ := h
  by_cases hl : (lookupA c.cache k).isSome = true
  · rw [LRU.put_overwrite c k v hl]
    have hkmem : k ∈ c.access_order := (hmem k).2 hl
    refine ⟨setA_keys_nodup _ _ _ hnk, ?_, ?_, ?_⟩
    · rw [List.nodup_append]
      exact ⟨hno.erase k, List.nodup_singleton k, by
        intro a ha hb
        rw [List.mem_singleton] at hb
        subst hb
        exact hno.not_mem_erase ha⟩
    · intro j
      by_cases hj : j = k
      · subst hj
        rw [List.mem_append]
        simp only [List.mem_singleton, or_true, true_iff]
        rw [lookupA_setA_self]
        rfl
      · rw [List.mem_append]
        simp only [List.mem_singleton, hj, or_false]
        rw [List.mem_erase_of_ne hj, lookupA_setA_ne _ _ _ _ hj]
        exact hmem j
    · rw [setA, List.length_append, List.length_append, List.length_erase_of_mem hkmem]
      have h1 := eraseKey_of_mem_length c.cache k hnk hl
      have hpos : 0 < c.access_order.length := List.length_pos.2 (by
        intro hnil
        rw [hnil] at hkmem
        simp at hkmem)
      simp only [List.length_cons, List.length_nil]
      omega
  · have hl' : lookupA c.cache k = none := by
      cases hx : lookupA c.cache k
      · rfl
      · rw [hx] at hl
        simp at hl
    have hknotmem : k ∉ c.access_order := by
      intro hk
      exact hl ((hmem k).1 hk)
    by_cases hcap : c.maxsize ≤ c.cache.length
    · rcases hord : c.access_order with _ | ⟨oldest, rest⟩
      · rw [LRU.put, if_neg (by simp [hl]), if_pos hcap, hord]
        dsimp only
        refine ⟨setA_keys_nodup _ _ _ hnk, List.nodup_singleton k, ?_, ?_⟩
        · intro j
          rw [List.mem_singleton]
          constructor
          · intro hj
            subst hj
            rw [lookupA_setA_self]
            rfl
          · intro hj
            by_contra hne
            rw [lookupA_setA_ne _ _ _ _ hne] at hj
            have : j ∈ c.access_order := (hmem j).2 hj
            rw [hord] at this
            simp at this
        · have hnil : c.cache.length = 0 := by
            rw [hlen, hord]
            rfl
          have hcnil : c.cache = [] := List.length_eq_zero.1 hnil
          rw [setA, hcnil]
          rfl
      · rw [LRU.put, if_neg (by simp [hl]), if_pos hcap, hord]
        dsimp only
        have holdmem : oldest ∈ c.access_order := by
          rw [hord]
          exact List.mem_cons_self oldest rest
        have holdlook : (lookupA c.cache oldest).isSome = true := (hmem oldest).1 holdmem
        have hrest_nodup : rest.Nodup := by
          have := hno
          rw [hord, List.nodup_cons] at this
          exact this.2
        have holdnotrest : oldest ∉ rest := by
          have := hno
          rw [hord, List.nodup_cons] at this
          exact this.1
        have hknotrest : k ∉ rest := by
          intro hk
          apply hknotmem
          rw [hord]
          exact List.mem_cons_of_mem oldest hk
        have hkeys1 : ((eraseKey c.cache oldest).map Prod.fst).Nodup :=
          eraseKey_keys_nodup c.cache oldest hnk
        refine ⟨setA_keys_nodup _ _ _ hkeys1, ?_, ?_, ?_⟩
        · rw [List.nodup_append]
          refine ⟨hrest_nodup, List.nodup_singleton k, ?_⟩
          intro a ha hb
          rw [List.mem_singleton] at hb
          subst hb
          exact hknotrest ha
        · intro j
          rw [List.mem_append, List.mem_singleton]
          by_cases hj : j = k
          · subst hj
            simp only [or_true, true_iff]
            rw [lookupA_setA_self]
            rfl
          · simp only [hj, or_false]
            rw [lookupA_setA_ne _ _ _ _ hj]
            by_cases hjo : j = oldest
            · subst hjo
              rw [lookupA_eraseKey_self]
              simp [holdnotrest]
            · rw [lookupA_eraseKey_ne _ _ _ hjo]
              constructor
              · intro hjr
                exact (hmem j).1 (by rw [hord]; exact List.mem_cons_of_mem oldest hjr)
              · intro hjl
                have := (hmem j).2 hjl
                rw [hord] at this
                rcases List.mem_cons.1 this with h1 | h1
                · exact absurd h1 hjo
                · exact h1
        · rw [setA, List.length_append, List.length_append]
          have h1 := eraseKey_of_mem_length c.cache oldest hnk holdlook
          have h2 : c.cache.length = rest.length + 1 := by
            rw [hlen, hord]
            rfl
          have h3 : eraseKey (eraseKey c.cache oldest) k = eraseKey c.cache oldest := by
            apply eraseKey_of_not_mem
            by_cases hko : k = oldest
            · subst hko
              exact lookupA_eraseKey_self _ _
            · rw [lookupA_eraseKey_ne _ _ _ hko]
              exact hl'
          rw [h3]
          simp only [List.length_cons, List.length_nil]
          omega
    · rw [LRU.put_fresh c k v hl' (by omega)]
      refine ⟨?_, ?_, ?_, ?_⟩
      · rw [List.map_append]
        rw [List.nodup_append]
        refine ⟨hnk, by simp, ?_⟩
        intro a ha hb
        simp at hb
        subst hb
        rw [← lookupA_isSome_iff_mem, hl'] at ha
        simp at ha
      · rw [List.nodup_append]
        exact ⟨hno, List.nodup_singleton k, by
          intro a ha hb
          rw [List.mem_singleton] at hb
          subst hb
          exact hknotmem ha⟩
      · intro j
        rw [List.mem_append, List.mem_singleton]
        by_cases hj : j = k
        · subst hj
          simp only [or_true, true_iff]
          rw [lookupA_append_of_none _ _ _ hl', lookupA_single_self]
          rfl
        · simp only [hj, or_false]
          rw [lookupA_append, lookupA_single_ne _ _ _ (fun h => hj h.symm)]
          rw [hmem j]
          cases lookupA c.cache j <;> simp
      · simp only [List.length_append, List.length_cons, List.length_nil]
        omega

theorem LRU.get_cache {K V : Type} [DecidableEq K] (c : LRU K V) (k : K) :
    (c.get k).2.cache = c.cache := by
  rcases hl : lookupA c.cache k with _ | v
  · rw [LRU.get_none c k hl]
  · rw [LRU.get_some c k v hl]

theorem LRU.get_maxsize {K V : Type} [DecidableEq K] (c : LRU K V) (k : K) :
    (c.get k).2.maxsize = c.maxsize := by
  rcases hl : lookupA c.cache k with _ | v
  · rw [LRU.get_none c k hl]
  · rw [LRU.get_some c k v hl]

theorem LRU.put_maxsize {K V : Type} [DecidableEq K] (c : LRU K V) (k : K) (v : V) :
    (c.put k v).maxsize = c.maxsize := by
  rw [LRU.put]
  by_cases h1 : (lookupA c.cache k).isSome = true
  · rw [if_pos h1]
  · rw [if_neg h1]
    by_cases h2 : c.maxsize ≤ c.cache.length
    · rw [if_pos h2]
      cases c.access_order <;> rfl
    · rw [if_neg h2]

/-- A `put` never pushes a well-formed cache over its capacity. -/
theorem put_length_le {K V : Type} [DecidableEq K] (c : LRU K V) (k : K) (v : V)
    (h : WF c) (hpos : 0 < c.maxsize) (hle : c.cache.length ≤ c.maxsize) :
    (c.put k v).cache.length ≤ c.maxsize := by
  obtain ⟨hnk, hno, hmem, hlen⟩ := h
  by_cases hl : (lookupA c.cache k).isSome = true
  · rw [LRU.put_overwrite c k v hl]
    have hsle := setA_length_le c.cache k v hl
    show (setA c.cache k v).length ≤ c.maxsize
    omega
  · have hl' : lookupA c.cache k = none := by
      cases hx : lookupA c.cache k
      · rfl
      · rw [hx] at hl
        simp at hl
    by_cases hcap : c.maxsize ≤ c.cache.length
    · rcases hord : c.access_order with _ | ⟨oldest, rest⟩
      · exfalso
        rw [hord, List.length_nil] at hlen
        omega
      · rw [LRU.put, if_neg (by simp [hl']), if_pos hcap, hord]
        dsimp only
        have holdlook : (lookupA c.cache oldest).isSome = true :=
          (hmem oldest).1 (by rw [hord]; exact List.mem_cons_self oldest rest)
        have h1 := eraseKey_of_mem_length c.cache oldest hnk holdlook
        have h3 : eraseKey (eraseKey c.cache oldest) k = eraseKey c.cache oldest := by
          apply eraseKey_of_not_mem
          by_cases hko : k = oldest
          · subst hko
            exact lookupA_eraseKey_self _ _
          · rw [lookupA_eraseKey_ne _ _ _ hko]
            exact hl'
        rw [setA, h3, List.length_append]
        simp only [List.length_cons, List.length_nil]
        omega
    · rw [LRU.put_fresh c k v hl' (by omega)]
      simp only [List.length_append, List.length_cons, List.length_nil]
      omega

/-- Any sequence of `get`/`put` operations preserves well-formedness, the
configured capacity, and the size bound. -/
theorem applyOps_invariant {K V : Type} [DecidableEq K] (ops : List (CacheOp K V)) :
    ∀ (c : LRU K V), WF c → 0 < c.maxsize → c.cache.length ≤ c.maxsize →
      WF (applyOps c ops) ∧ (applyOps c ops).maxsize = c.maxsize ∧
      (applyOps c ops).cache.length ≤ c.maxsize := by
  induction ops with
  | nil =>
      intro c h hpos hle
      exact ⟨h, rfl, hle⟩
  | cons op rest ih =>
      intro c h hpos hle
      have hstep : applyOps c (op :: rest) = applyOps (applyOp c op) rest := rfl
      rw [hstep]
      have hmax : (applyOp c op).maxsize = c.maxsize := by
        cases op with
        | get k => exact LRU.get_maxsize c k
        | put k v => exact LRU.put_maxsize c k v
      have hw : WF (applyOp c op) := by
        cases op with
        | get k => exact WF.get_pres c k h
        | put k v => exact WF.put_pres c k v h
      have hb : (applyOp c op).cache.length ≤ c.maxsize := by
        cases op with
        | get k =>
            show ((c.get k).2).cache.length ≤ c.maxsize
            rw [LRU.get_cache]
            exact hle
        | put k v => exact put_length_le c k v h hpos hle
      obtain ⟨hw2, hm2, hl2⟩ := ih (applyOp c op) hw (by omega) (by omega)
      rw [hmax] at hm2 hl2
      exact ⟨hw2, hm2, hl2⟩

/-- A `put` of a new key into a full well-formed cache evicts exactly the
front of the recency order (the least-recently-used key) and nothing
else. -/
theorem put_evicts_lru {K V : Type} [DecidableEq K] (c : LRU K V) (k : K) (v : V)
    (h : WF c) (hpos : 0 < c.maxsize) (hful : c.cache.length = c.maxsize)
    (hl : lookupA c.cache k = none) :
    ∃ lru rest, c.access_order = lru :: rest ∧
      (c.put k v).cache.length = c.maxsize ∧
      lookupA (c.put k v).cache lru = none ∧
      lookupA (c.put k v).cache k = some v ∧
      (∀ j, j ≠ lru → j ≠ k → lookupA (c.put k v).cache j = lookupA c.cache j) := by
  obtain ⟨hnk, hno, hmem, hlen⟩ := h
  rcases hord : c.access_order with _ | ⟨oldest, rest⟩
  · exfalso
    rw [hord, List.length_nil] at hlen
    omega
  · have holdlook : (lookupA c.cache oldest).isSome = true :=
      (hmem oldest).1 (by rw [hord]; exact List.mem_cons_self oldest rest)
    have hkold : k ≠ oldest := by
      intro hk
      rw [← hk, hl] at holdlook
      simp at holdlook
    have hput : c.put k v
        = ⟨c.maxsize, setA (eraseKey c.cache oldest) k v, rest ++ [k]⟩ := by
      rw [LRU.put, if_neg (by simp [hl]), if_pos (by omega), hord]
    have hke : lookupA (eraseKey c.cache oldest) k = none := by
      rw [lookupA_eraseKey_ne _ _ _ hkold]
      exact hl
    refine ⟨oldest, rest, rfl, ?_, ?_, ?_, ?_⟩
    · rw [hput]
      show (setA (eraseKey c.cache oldest) k v).length = c.maxsize
      rw [setA, eraseKey_of_not_mem _ _ hke, List.length_append]
      have h1 := eraseKey_of_mem_length c.cache oldest hnk holdlook
      simp only [List.length_cons, List.length_nil]
      omega
    · rw [hput]
      show lookupA (setA (eraseKey c.cache oldest) k v) oldest = none
      rw [lookupA_setA_ne _ _ _ _ (fun hh => hkold hh.symm), lookupA_eraseKey_self]
    · rw [hput]
      show lookupA (setA (eraseKey c.cache oldest) k v) k = some v
      exact lookupA_setA_self _ _ _
    · intro j hj1 hj2
      rw [hput]
      show lookupA (setA (eraseKey c.cache oldest) k v) j = lookupA c.cache j
      rw [lookupA_setA_ne _ _ _ _ hj2, lookupA_eraseKey_ne _ _ _ hj1]

theorem lookupA_mapList_self {K V : Type} [DecidableEq K] (v : V) (ks : List K) (k : K)
    (h : k ∈ ks) : lookupA (ks.map (fun k => (k, v))) k = some v := by
  induction ks with
  | nil => simp at h
  | cons a rest ih =>
      rw [List.map_cons]
      by_cases ha : a = k
      · rw [lookupA, if_pos ha]
      · rw [lookupA, if_neg ha]
        rcases List.mem_cons.1 h with h1 | h1
        · exact absurd h1.symm ha
        · exact ih h1

theorem lookupA_mapList_none {K V : Type} [DecidableEq K] (v : V) (ks : List K) (k : K)
    (h : k ∉ ks) : lookupA (ks.map (fun k => (k, v))) k = none := by
  rw [lookupA_eq_none_iff_not_mem, List.map_map]
  simpa using h

/-- Inserting fresh distinct keys into a cache with room appends them in
order. -/
theorem putKeys_fresh {K V : Type} [DecidableEq K] (v : V) :
    ∀ (ks : List K) (c : LRU K V), ks.Nodup →
      (∀ k ∈ ks, lookupA c.cache k = none) →
      c.cache.length + ks.length ≤ c.maxsize →
      (putKeys c ks v).cache = c.cache ++ ks.map (fun k => (k, v)) ∧
      (putKeys c ks v).access_order = c.access_order ++ ks ∧
      (putKeys c ks v).maxsize = c.maxsize := by
  intro ks
  induction ks with
  | nil =>
      intro c _ _ _
      simp [putKeys]
  | cons k0 rest ih =>
      intro c hnd hfresh hroom
      simp only [List.length_cons] at hroom
      rw [List.nodup_cons] at hnd
      have hput : c.put k0 v = ⟨c.maxsize, c.cache ++ [(k0, v)], c.access_order ++ [k0]⟩ :=
        LRU.put_fresh c k0 v (hfresh k0 (List.mem_cons_self k0 rest)) (by omega)
      have hstep : putKeys c (k0 :: rest) v = putKeys (c.put k0 v) rest v := rfl
      rw [hstep]
      have hfresh' : ∀ k ∈ rest, lookupA (c.put k0 v).cache k = none := by
        intro k hk
        rw [hput]
        show lookupA (c.cache ++ [(k0, v)]) k = none
        rw [lookupA_append_of_none _ _ _ (hfresh k (List.mem_cons_of_mem k0 hk)),
          lookupA_single_ne _ _ _ (fun hh => hnd.1 (by rw [hh]; exact hk))]
      have hroom' : (c.put k0 v).cache.length + rest.length ≤ (c.put k0 v).maxsize := by
        rw [hput]
        show (c.cache ++ [(k0, v)]).length + rest.length ≤ c.maxsize
        rw [List.length_append]
        simp only [List.length_cons, List.length_nil]
        omega
      obtain ⟨h1, h2, h3⟩ := ih (c.put k0 v) hnd.2 hfresh' hroom'
      refine ⟨?_, ?_, ?_⟩
      · rw [h1, hput]
        show c.cache ++ [(k0, v)] ++ List.map (fun k => (k, v)) rest
          = c.cache ++ List.map (fun k => (k, v)) (k0 :: rest)
        rw [List.append_assoc, List.map_cons]
        rfl
      · rw [h2, hput]
        show c.access_order ++ [k0] ++ rest = c.access_order ++ k0 :: rest
        rw [List.append_assoc]
        rfl
      · rw [h3, hput]

/-- `C7`: the LRU cache (i) stays well-formed and holds at most `maxSize`
entries after every sequence of `get`/`put` operations on a freshly
constructed cache; (ii) a `put` of a new key at capacity evicts exactly
one entry, the front of the recency order (the least-recently-used key,
where both hits and puts refresh recency), keeps the new key, and leaves
every other binding intact; and (iii) inserting `maxSize + 1` distinct
keys into a fresh cache causes exactly one eviction: the first
(least-recently-used) key is gone and all later keys — including the
most-recently-used last one — are present. -/
theorem C7_lru_invariants {K V : Type} [DecidableEq K] :
    (∀ (m : Nat) (ops : List (CacheOp K V)), 0 < m →
      WF (applyOps (LRU.empty K V m) ops) ∧
      (applyOps (LRU.empty K V m) ops).cache.length ≤ m) ∧
    (∀ (c : LRU K V) (k : K) (v : V), WF c → 0 < c.maxsize →
      c.cache.length = c.maxsize → lookupA c.cache k = none →
      ∃ lru rest, c.access_order = lru :: rest ∧
        (c.put k v).cache.length = c.maxsize ∧
        lookupA (c.put k v).cache lru = none ∧
        lookupA (c.put k v).cache k = some v ∧
        (∀ j, j ≠ lru → j ≠ k → lookupA (c.put k v).cache j = lookupA c.cache j)) ∧
    (∀ (m : Nat) (k0 : K) (ks : List K) (kL : K) (v : V),
      (k0 :: ks).length = m → ((k0 :: ks) ++ [kL]).Nodup →
      (putKeys (LRU.empty K V m) ((k0 :: ks) ++ [kL]) v).cache.length = m ∧
      lookupA (putKeys (LRU.empty K V m) ((k0 :: ks) ++ [kL]) v).cache k0 = none ∧
      (∀ k ∈ ks,
        (lookupA (putKeys (LRU.empty K V m) ((k0 :: ks) ++ [kL]) v).cache k).isSome
          = true) ∧
      (lookupA (putKeys (LRU.empty K V m) ((k0 :: ks) ++ [kL]) v).cache kL).isSome
        = true) := by
  have hempty_wf : ∀ m : Nat, WF (LRU.empty K V m) := by
    intro m
    refine ⟨by simp [LRU.empty], by simp [LRU.empty], ?_, by simp [LRU.empty]⟩
    intro k
    simp [LRU.empty, lookupA]
  refine ⟨?_, ?_, ?_⟩
  · intro m ops hpos
    have h := applyOps_invariant ops (LRU.empty K V m) (hempty_wf m) hpos
      (by simp [LRU.empty])
    exact ⟨h.1, h.2.2⟩
  · intro c k v h hpos hful hl
    exact put_evicts_lru c k v h hpos hful hl
  · intro m k0 ks kL v hlenm hnodup
    rw [List.nodup_append] at hnodup
    obtain ⟨hnd1, _, hdisj⟩ := hnodup
    have hkL : kL ∉ k0 :: ks := by
      intro hk
      exact hdisj hk (List.mem_singleton.2 rfl)
    have hm' : ks.length + 1 = m := by
      simpa using hlenm
    have hfill := putKeys_fresh v (k0 :: ks) (LRU.empty K V m) hnd1
      (by intro k _; rfl) (by simp [LRU.empty]; omega)
    have happ : putKeys (LRU.empty K V m) ((k0 :: ks) ++ [kL]) v
        = (putKeys (LRU.empty K V m) (k0 :: ks) v).put kL v := by
      rw [putKeys, List.foldl_append]
      rfl
    set A := putKeys (LRU.empty K V m) (k0 :: ks) v with hA
    have hAcache : A.cache = (k0 :: ks).map (fun k => (k, v)) := by
      rw [hfill.1]
      rfl
    have hAorder : A.access_order = k0 :: ks := by
      rw [hfill.2.1]
      rfl
    have hAmax : A.maxsize = m := hfill.2.2
    have hAlen : A.cache.length = m := by
      rw [hAcache, List.length_map]
      exact hlenm
    have hkLfresh : lookupA A.cache kL = none := by
      rw [hAcache]
      exact lookupA_mapList_none v (k0 :: ks) kL hkL
    have hk0notks : k0 ∉ ks := (List.nodup_cons.1 hnd1).1
    have herase : eraseKey A.cache k0 = ks.map (fun k => (k, v)) := by
      rw [hAcache, List.map_cons, eraseKey, if_pos rfl]
      exact eraseKey_of_not_mem _ _ (lookupA_mapList_none v ks k0 hk0notks)
    have hput : A.put kL v
        = ⟨A.maxsize, setA (eraseKey A.cache k0) kL v, ks ++ [kL]⟩ := by
      rw [LRU.put, if_neg (by simp [hkLfresh]), if_pos (by rw [hAlen, hAmax]), hAorder]
    have hsetA : setA (eraseKey A.cache k0) kL v
        = ks.map (fun k => (k, v)) ++ [(kL, v)] := by
      rw [setA, herase]
      rw [eraseKey_of_not_mem _ _ (lookupA_mapList_none v ks kL
        (fun hk => hkL (List.mem_cons_of_mem k0 hk)))]
    rw [happ, hput]
    refine ⟨?_, ?_, ?_, ?_⟩
    · show (setA (eraseKey A.cache k0) kL v).length = m
      rw [hsetA, List.length_append, List.length_map]
      simp only [List.length_cons, List.length_nil]
      simp only [List.length_cons] at hlenm
      omega
    · show lookupA (setA (eraseKey A.cache k0) kL v) k0 = none
      rw [hsetA, lookupA_append_of_none _ _ _ (lookupA_mapList_none v ks k0 hk0notks),
        lookupA_single_ne _ _ _ (fun hh => hkL (by rw [hh]; exact List.mem_cons_self k0 ks))]
    · intro k hk
      show (lookupA (setA (eraseKey A.cache k0) kL v) k).isSome = true
      rw [hsetA, lookupA_append_of_some _ _ _ _ (lookupA_mapList_self v ks k hk)]
      rfl
    · show (lookupA (setA (eraseKey A.cache k0) kL v) kL).isSome = true
      rw [hsetA, lookupA_append_of_none _ _ _ (lookupA_mapList_none v ks kL
        (fun hk => hkL (List.mem_cons_of_mem k0 hk))), lookupA_single_self]
      rfl

/-- Witness for `C7`: capacity-2 cache over `Nat` keys; a four-operation
history keeps the bound, and inserting the three distinct keys `1, 2, 3`
evicts exactly key `1` while key `3` (the most recent) is present. -/
theorem C7_witness :
    WF (applyOps (LRU.empty Nat Nat 2)
      [CacheOp.put 1 10, CacheOp.put 2 20, CacheOp.get 1, CacheOp.put 3 30]) ∧
    (applyOps (LRU.empty Nat Nat 2)
      [CacheOp.put 1 10, CacheOp.put 2 20, CacheOp.get 1, CacheOp.put 3 30]).cache.length
      ≤ 2 ∧
    lookupA (putKeys (LRU.empty Nat Nat 2) ((1 :: [2]) ++ [3]) 0).cache 1 = none ∧
    (lookupA (putKeys (LRU.empty Nat Nat 2) ((1 :: [2]) ++ [3]) 0).cache 3).isSome
      = true := by
  have h1 := (@C7_lru_invariants Nat Nat _).1 2
    [CacheOp.put 1 10, CacheOp.put 2 20, CacheOp.get 1, CacheOp.put 3 30] (by decide)
  have h3 := (@C7_lru_invariants Nat Nat _).2.2 2 1 [2] 3 0 (by decide) (by decide)
  exact ⟨h1.1, h1.2, h3.2.1, h3.2.2.2⟩

end TkVoice
